import Mathlib

/-!
Verification development for the ai-factory extension reconciler.

Part 1 embeds the marker codec from `src/core/injections.ts`
(`startMarker`, `endMarker`, `markerRegex`, `stripInjection`,
`applyInjection`, `stripAllMarkersForExtension`).  File contents are
`List Char`; the JavaScript global regex replace with the lazy pattern
`\n?START\n[\s\S]*?\nEND\n?` is embedded as an explicit leftmost scanner.

Part 2 embeds the lifecycle reconciler (`extensionAddCommand`,
`extensionRemoveCommand` from `src/cli/commands/extension.ts` and
`updateCommand` from `src/cli/commands/update.ts`) as pure transition
functions on an explicit world state, with the external skill installer
(out of scope per the spec) modelled as a success oracle.
-/

namespace AIF

/-- Injection position, the `'append' | 'prepend'` union of the source. -/
inductive Pos
  | append
  | prepend
deriving DecidableEq

/-- The characters of the position, as interpolated into the marker text. -/
def Pos.toChars : Pos → List Char
  | .append => "append".toList
  | .prepend => "prepend".toList

/-- JavaScript whitespace (WhiteSpace plus LineTerminator), as removed by
`String.prototype.trimEnd`. -/
def jsWhitespace (c : Char) : Bool :=
  c == ' ' || c == '\t' || c == '\n' || c.toNat == 0x0b || c.toNat == 0x0c || c == '\r' ||
  c.toNat == 0xA0 || c.toNat == 0x1680 || (0x2000 ≤ c.toNat && c.toNat ≤ 0x200A) ||
  c.toNat == 0x2028 || c.toNat == 0x2029 || c.toNat == 0x202F || c.toNat == 0x205F ||
  c.toNat == 0x3000 || c.toNat == 0xFEFF

/-- `String.prototype.trimEnd`. -/
def trimEnd (l : List Char) : List Char :=
  (l.reverse.dropWhile jsWhitespace).reverse

/-- Boolean test that `p` is a literal prefix of `l`. -/
def isPre : List Char → List Char → Bool
  | [], _ => true
  | _ :: _, [] => false
  | a :: as, b :: bs => a == b && isPre as bs

/-- Boolean test that `p` occurs as a contiguous substring of `l`. -/
def containsSub (p : List Char) : List Char → Bool
  | [] => p.isEmpty
  | c :: t => isPre p (c :: t) || containsSub p t

/-- `startMarker` from the source: the line
`<!-- aif-ext:EXT:SKILL:POS:start -->`. -/
def startMarker (ext skill pos : List Char) : List Char :=
  "<!-- aif-ext:".toList ++ ext ++ [':'] ++ skill ++ [':'] ++ pos ++ ":start -->".toList

/-- `endMarker` from the source: the line
`<!-- aif-ext:EXT:SKILL:POS:end -->`. -/
def endMarker (ext skill pos : List Char) : List Char :=
  "<!-- aif-ext:".toList ++ ext ++ [':'] ++ skill ++ [':'] ++ pos ++ ":end -->".toList

/-- Drop a single leading newline if present (the trailing `\n?` of the
marker regex). -/
def dropNl : List Char → List Char
  | [] => []
  | c :: t => if c = '\n' then t else c :: t

/-- The lazy tail `[\s\S]*?\nEND\n?` of the marker regex: scan for the
earliest newline followed by the literal end marker, and return the
remainder after the end marker and one optional newline. -/
def findClose (e : List Char) : List Char → Option (List Char)
  | [] => none
  | c :: rest =>
      if c = '\n' ∧ isPre e rest = true then
        some (dropNl (rest.drop e.length))
      else findClose e rest

/-- Match `START\n[\s\S]*?\nEND\n?` at the head of `l`, returning the
remainder after the match. -/
def matchCore (s e : List Char) (l : List Char) : Option (List Char) :=
  if isPre s l = true then
    match l.drop s.length with
    | [] => none
    | c :: rest => if c = '\n' then findClose e rest else none
  else none

/-- Match the full pattern `\n?START\n[\s\S]*?\nEND\n?` at the head of `l`
(the optional leading newline is greedy, with regex backtracking). -/
def matchMarker (s e : List Char) (l : List Char) : Option (List Char) :=
  match l with
  | [] => matchCore s e []
  | c :: rest =>
      if c = '\n' then
        match matchCore s e rest with
        | some r => some r
        | none => matchCore s e (c :: rest)
      else matchCore s e (c :: rest)

/-- Leftmost global replace-by-empty of the marker pattern, the embedding of
`content.replace(markerRegex(...), '')`.  `fuel` bounds the recursion; any
fuel at least `l.length` computes the replacement (each match consumes at
least one character). -/
def replaceMarkerAux (s e : List Char) : Nat → List Char → List Char
  | 0, l => l
  | _ + 1, [] => []
  | fuel + 1, c :: rest =>
      match matchMarker s e (c :: rest) with
      | some rem => replaceMarkerAux s e fuel rem
      | none => c :: replaceMarkerAux s e fuel rest

/-- Global replace of the marker pattern by the empty string. -/
def replaceMarker (s e l : List Char) : List Char :=
  replaceMarkerAux s e l.length l

/-- `stripInjection` from the source. -/
def stripInjection (content : List Char) (extensionName skillName : List Char)
    (position : Pos) : List Char :=
  replaceMarker (startMarker extensionName skillName position.toChars)
    (endMarker extensionName skillName position.toChars) content

/-- The front-matter fence line `---\n`. -/
def fmFence : List Char := "---\n".toList

/-- Scan for the earliest close `\n---\n` of a front-matter section
(the lazy tail of `/^---\n[\s\S]*?\n---\n/`), returning the consumed
characters (including the close) and the remainder. -/
def findFmClose : List Char → Option (List Char × List Char)
  | [] => none
  | c :: rest =>
      if c = '\n' ∧ isPre fmFence rest = true then
        some ('\n' :: fmFence, rest.drop 4)
      else
        match findFmClose rest with
        | some (pre, rem) => some (c :: pre, rem)
        | none => none

/-- `content.match(/^---\n[\s\S]*?\n---\n/)`: split content into the
front-matter match and the remainder, if the anchored pattern matches. -/
def fmSplit (l : List Char) : Option (List Char × List Char) :=
  if isPre fmFence l = true then
    match findFmClose (l.drop 4) with
    | some (pre, rem) => some (fmFence ++ pre, rem)
    | none => none
  else none

/-- `applyInjection` from the source: strip any existing block for the same
triple, then insert the new sentinel-wrapped block at file end (`append`)
or after front matter, else at file start (`prepend`). -/
def applyInjection (skillContent injectionContent : List Char) (position : Pos)
    (extensionName skillName : List Char) : List Char :=
  let content := stripInjection skillContent extensionName skillName position
  let s := startMarker extensionName skillName position.toChars
  let e := endMarker extensionName skillName position.toChars
  let block := s ++ '\n' :: (trimEnd injectionContent ++ '\n' :: e)
  match position with
  | .append => trimEnd content ++ '\n' :: '\n' :: (block ++ ['\n'])
  | .prepend =>
      match fmSplit content with
      | some (fm, rest) => fm ++ '\n' :: (block ++ '\n' :: rest)
      | none => block ++ '\n' :: '\n' :: content

/-! ## Part 2: the generic by-name marker scrubber
(`stripAllMarkersForExtension` / `extensionMarkerRegex` from the source,
whose skill and position fields are the wildcards `[^:]+`). -/

/-- Split a list at its first colon: `(segment, rest after the colon)`. -/
def splitAtColon : List Char → Option (List Char × List Char)
  | [] => none
  | c :: rest =>
      if c = ':' then some ([], rest)
      else
        match splitAtColon rest with
        | some (seg, r) => some (c :: seg, r)
        | none => none

/-- The text `<!-- aif-ext:X:` opening every marker of extension `X`. -/
def extTokenChars (x : List Char) : List Char := "<!-- aif-ext:".toList ++ x ++ [':']

/-- The text `aif-ext:X:` used by the fallback scan to pre-filter files. -/
def nameTokenChars (x : List Char) : List Char := "aif-ext:".toList ++ x ++ [':']

/-- Match `<!-- aif-ext:X:[^:]+:[^:]+:KIND` at the head of `l`, returning the
remainder. -/
def matchGenAt (x kind l : List Char) : Option (List Char) :=
  if isPre (extTokenChars x) l = true then
    match splitAtColon (l.drop (extTokenChars x).length) with
    | some ([], _) => none
    | some (_ :: _, r1) =>
        match splitAtColon r1 with
        | some ([], _) => none
        | some (_ :: _, r2) =>
            if isPre kind r2 = true then some (r2.drop kind.length) else none
        | none => none
    | none => none
  else none

/-- The lazy tail of the extension-wide marker regex: earliest newline
followed by a generic end marker of `X`, with one optional trailing
newline. -/
def findGenClose (x : List Char) : List Char → Option (List Char)
  | [] => none
  | c :: rest =>
      if c = '\n' then
        match matchGenAt x ("end -->".toList) rest with
        | some r => some (dropNl r)
        | none => findGenClose x rest
      else findGenClose x rest

/-- Match a full generic block of `X` at the head (without the optional
leading newline). -/
def matchGenCore (x l : List Char) : Option (List Char) :=
  match matchGenAt x ("start -->".toList) l with
  | some r =>
      match r with
      | [] => none
      | c :: r2 => if c = '\n' then findGenClose x r2 else none
  | none => none

/-- Match `\n?` plus a full generic block of `X` at the head. -/
def matchGenMarker (x l : List Char) : Option (List Char) :=
  match l with
  | [] => matchGenCore x []
  | c :: rest =>
      if c = '\n' then
        match matchGenCore x rest with
        | some r => some r
        | none => matchGenCore x (c :: rest)
      else matchGenCore x (c :: rest)

/-- Leftmost global replace-by-empty of the extension-wide pattern. -/
def stripGenAux (x : List Char) : Nat → List Char → List Char
  | 0, l => l
  | _ + 1, [] => []
  | fuel + 1, c :: rest =>
      match matchGenMarker x (c :: rest) with
      | some rem => stripGenAux x fuel rem
      | none => c :: stripGenAux x fuel rest

/-- `stripAllMarkersForExtension` from the source. -/
def stripAllMarkersForExtension (content : List Char) (extensionName : List Char) :
    List Char :=
  stripGenAux extensionName content.length content

/-! ## Part 3: the lifecycle reconciler model

The world state holds, per configured agent, the installed behaviors (with
their provenance) and the text files injections act on; plus the extension
record store and the durable extension storage.  The external skill
installer (out of scope per the spec) is an oracle in `Env`. -/

/-- `InjectionDirective` of the manifest. -/
structure Directive where
  target : String
  position : Pos
  file : String
deriving DecidableEq

/-- The extension manifest (the fields the reconciler reads).  `replaces`
is `none` when the manifest declares no `replaces` object (in the source a
missing field, distinct from an empty object). -/
structure Manifest where
  name : String
  version : String
  skills : List String
  replaces : Option (List (String × String))
  injections : List Directive
deriving DecidableEq

/-- One record of the extension state store. -/
structure ExtRecord where
  name : String
  source : String
  version : String
  replacedSkills : List String
deriving DecidableEq

/-- Provenance of an installed behavior file. -/
inductive SkillOrigin
  | base
  | ext (name : String)
deriving DecidableEq

/-- One configured agent target: its installed behaviors and its text
files (keyed by the target behavior name injections resolve). -/
structure AgentState where
  id : String
  skills : List (String × SkillOrigin)
  files : List (String × List Char)
deriving DecidableEq

/-- Durable extension storage for one extension: its manifest (`none` when
unreadable) and its file tree. -/
structure StoredExt where
  manifest : Option Manifest
  files : List (String × List Char)
deriving DecidableEq

/-- The whole mutable state. -/
structure World where
  agents : List AgentState
  extensions : List ExtRecord
  storage : List (String × StoredExt)
deriving DecidableEq

/-- External collaborators: the base-behavior catalog and the per-agent,
per-path success oracle of the black-box skill installer. -/
structure Env where
  available : List String
  instOk : String → String → Bool

/-- The output of the external source resolver: a validated manifest plus
a file tree (resolution touches no project state). -/
structure Resolved where
  manifest : Manifest
  files : List (String × List Char)
deriving DecidableEq

/-- Observable side effects, in program order. -/
inductive Event
  | storageCommit (name : String)
  | storageRemove (name : String)
  | stripped (agent : String) (extName : String)
  | skillInstalled (agent : String) (name : String)
  | skillRemoved (agent : String) (name : String)
  | baseInstalled (agent : String) (name : String)
  | injected (agent : String) (target : String)
  | saveStore (records : List ExtRecord)
deriving DecidableEq

/-- Is the event an injection write? -/
def Event.isInjected : Event → Bool
  | .injected _ _ => true
  | _ => false

/-- Is the event a per-agent file side effect? -/
def Event.isAgentEffect : Event → Bool
  | .stripped _ _ => true
  | .skillInstalled _ _ => true
  | .skillRemoved _ _ => true
  | .baseInstalled _ _ => true
  | .injected _ _ => true
  | _ => false

/-- The result of one command: final state, emitted side effects, error. -/
structure Outcome where
  world : World
  events : List Event
  err : Option String
deriving DecidableEq

/-- Association-list lookup (first binding wins). -/
def alookup {α : Type} (k : String) : List (String × α) → Option α
  | [] => none
  | (k2, v) :: t => if k2 = k then some v else alookup k t

/-- Association-list update in place (append when absent). -/
def aset {α : Type} : List (String × α) → String → α → List (String × α)
  | [], k, v => [(k, v)]
  | (k2, v2) :: t, k, v =>
      if k2 = k then (k, v) :: t else (k2, v2) :: aset t k v

/-- Association-list removal. -/
def aremove {α : Type} : List (String × α) → String → List (String × α)
  | [], _ => []
  | (k2, v2) :: t, k =>
      if k2 = k then aremove t k else (k2, v2) :: aremove t k

/-- Installed behavior of name `n` on agent `a`. -/
def getSkill (a : AgentState) (n : String) : Option SkillOrigin := alookup n a.skills

/-- Text file for behavior `n` on agent `a`. -/
def getFile (a : AgentState) (n : String) : Option (List Char) := alookup n a.files

/-- Modelled from the spec: `installExtensionSkills` of the external skill
installer (not under src/) installs each listed extension skill path whose
per-agent install succeeds (the `instOk` oracle), under its override name
(replacements) or its own path (custom skills), and returns the names it
installed. -/
def installExtensionSkills (env : Env) (extName : String) (a : AgentState) :
    List String → List (String × String) → List String × AgentState
  | [], _ => ([], a)
  | p :: rest, overrides =>
      if env.instOk a.id p then
        let n := (alookup p overrides).getD p
        let r := installExtensionSkills env extName
          { a with skills := aset a.skills n (SkillOrigin.ext extName) } rest overrides
        (n :: r.1, r.2)
      else installExtensionSkills env extName a rest overrides

/-- Modelled from the spec: `removeExtensionSkills` of the external skill
installer deletes the behaviors with the given names from the agent and
returns the names actually removed. -/
def removeExtensionSkills (a : AgentState) (names : List String) :
    List String × AgentState :=
  (names.filter (fun n => (alookup n a.skills).isSome),
   { a with skills := names.foldl (fun sk n => aremove sk n) a.skills })

/-- Modelled from the spec: `installSkills` of the external skill installer
(re)installs base behaviors under their own ids. -/
def installSkills (a : AgentState) (names : List String) : AgentState :=
  { a with skills := names.foldl (fun sk n => aset sk n SkillOrigin.base) a.skills }

/-- `applySingleExtensionInjections`: apply each declared directive to its
target behavior file, silently skipping a missing or empty target or
content file. -/
def applyDirectives (extName : String) (stored : List (String × List Char))
    (a : AgentState) : List Directive → AgentState × List Event
  | [] => (a, [])
  | d :: rest =>
      match alookup d.target a.files with
      | none => applyDirectives extName stored a rest
      | some content =>
          if content = [] then applyDirectives extName stored a rest
          else
            match alookup d.file stored with
            | none => applyDirectives extName stored a rest
            | some inj =>
                if inj = [] then applyDirectives extName stored a rest
                else
                  let updated :=
                    applyInjection content inj d.position extName.toList d.target.toList
                  let r := applyDirectives extName stored
                    { a with files := aset a.files d.target updated } rest
                  (r.1, Event.injected a.id d.target :: r.2)

/-- `stripAllExtensionInjections`: strip each declared directive triple from
its target behavior file. -/
def stripDirectives (extName : String) (a : AgentState) :
    List Directive → AgentState
  | [] => a
  | d :: rest =>
      match alookup d.target a.files with
      | none => stripDirectives extName a rest
      | some content =>
          if content = [] then stripDirectives extName a rest
          else
            let updated := stripInjection content extName.toList d.target.toList d.position
            stripDirectives extName { a with files := aset a.files d.target updated } rest

/-- `stripInjectionsByExtensionName`: scan every text file of the agent and
strip all marker blocks of the extension, whatever their target and
position (fallback used when the manifest is unreadable, and on
re-install). -/
def stripByName (extName : String) (a : AgentState) : AgentState :=
  { a with files := a.files.map (fun fv =>
      if fv.2 ≠ [] ∧ containsSub (nameTokenChars extName.toList) fv.2 = true then
        (fv.1, stripAllMarkersForExtension fv.2 extName.toList)
      else fv) }

/-- Per-agent loop of the fallback strip. -/
def stripByNameAll (extName : String) : List AgentState → List AgentState × List Event
  | [] => ([], [])
  | a :: rest =>
      let r := stripByNameAll extName rest
      (stripByName extName a :: r.1, Event.stripped a.id extName :: r.2)

/-- Per-agent loop of the manifest-directed strip. -/
def stripDirAll (extName : String) (ds : List Directive) :
    List AgentState → List AgentState × List Event
  | [] => ([], [])
  | a :: rest =>
      let r := stripDirAll extName ds rest
      (stripDirectives extName a ds :: r.1, Event.stripped a.id extName :: r.2)

/-- Per-agent loop of `removeExtensionSkills`. -/
def removeSkillsAll (names : List String) :
    List AgentState → List AgentState × List Event
  | [] => ([], [])
  | a :: rest =>
      let r := removeSkillsAll names rest
      ((removeExtensionSkills a names).2 :: r.1,
        (removeExtensionSkills a names).1.map (fun n => Event.skillRemoved a.id n) ++ r.2)

/-- Per-agent loop of `installSkills`. -/
def installBaseAll (names : List String) :
    List AgentState → List AgentState × List Event
  | [] => ([], [])
  | a :: rest =>
      let r := installBaseAll names rest
      (installSkills a names :: r.1,
        names.map (fun n => Event.baseInstalled a.id n) ++ r.2)

/-- Per-agent loop of `installExtensionSkills`, concatenating the installed
name lists of all agents (the success tally of the install phase). -/
def installExtAll (env : Env) (extName : String) (paths : List String)
    (overrides : List (String × String)) :
    List AgentState → List AgentState × List String × List Event
  | [] => ([], [], [])
  | a :: rest =>
      let i := installExtensionSkills env extName a paths overrides
      let r := installExtAll env extName paths overrides rest
      (i.2 :: r.1, i.1 ++ r.2.1, i.1.map (fun n => Event.skillInstalled a.id n) ++ r.2.2)

/-- Per-agent loop of `applySingleExtensionInjections`. -/
def applyInjAll (extName : String) (stored : List (String × List Char))
    (ds : List Directive) : List AgentState → List AgentState × List Event
  | [] => ([], [])
  | a :: rest =>
      let i := applyDirectives extName stored a ds
      let r := applyInjAll extName stored ds rest
      (i.1 :: r.1, i.2 ++ r.2)

/-- The pre-mutation conflict check of `extensionAddCommand`: the first
declared base name already owned by a record with a different name. -/
def conflictCheck (m : Manifest) (exts : List ExtRecord) : Option String :=
  match m.replaces with
  | none => none
  | some entries =>
      match entries.find? (fun pb =>
        exts.any (fun o => o.name != m.name && o.replacedSkills.contains pb.2)) with
      | some pb => some pb.2
      | none => none

/-- The per-entry success branch of the replacement install phase: an entry
is recorded iff its success tally equals the agent count; a partial success
is rolled back on every agent and the base behavior reinstalled when it is
in the catalog. -/
def processEntries (env : Env) (n : Nat) (installedAll : List String) :
    List AgentState → List (String × String) →
      List AgentState × List String × List Event
  | ags, [] => (ags, [], [])
  | ags, (_, b) :: rest =>
      let sc := installedAll.count b
      if sc = n then
        let r := processEntries env n installedAll ags rest
        (r.1, b :: r.2.1, r.2.2)
      else if 0 < sc then
        let r1 := removeSkillsAll [b] ags
        let r2 := if b ∈ env.available then installBaseAll [b] r1.1 else (r1.1, [])
        let r := processEntries env n installedAll r2.1 rest
        (r.1, r.2.1, r1.2 ++ r2.2 ++ r.2.2)
      else processEntries env n installedAll ags rest

/-- Replace the first record with the same name in place, else append
(the `extensions[existIdx] = record` / `extensions.push(record)` step). -/
def updateRecord : List ExtRecord → ExtRecord → List ExtRecord
  | [], r => [r]
  | r2 :: rest, r => if r2.name = r.name then r :: rest else r2 :: updateRecord rest r

/-- Find the first record with the given name and return it together with
the remaining records in order (`findIndex` plus `splice`). -/
def findRemove : List ExtRecord → String → Option (ExtRecord × List ExtRecord)
  | [], _ => none
  | r :: rest, n =>
      if r.name = n then some (r, rest)
      else
        match findRemove rest n with
        | some (x, others) => some (x, r :: others)
        | none => none

/-- The extension record committed by a successful `extensionAddCommand`,
replicating its cleanup and replacement-processing phases (definitionally
the record built inside the command body). -/
def addRecordOf (env : Env) (w : World) (resolved : Resolved) (source : String) :
    ExtRecord :=
  let manifest := resolved.manifest
  let exts := w.extensions
  let isReinstall := exts.any (fun r => r.name == manifest.name)
  let oldRecord := exts.find? (fun r => r.name == manifest.name)
  let oldManifest :=
    if isReinstall then (alookup manifest.name w.storage).bind (fun st => st.manifest)
    else none
  let c1 :=
    if isReinstall then
      let s1 := stripByNameAll manifest.name w.agents
      let old := (oldRecord.map (fun r => r.replacedSkills)).getD []
      let sr := removeSkillsAll old s1.1
      let toRestore := old.filter (fun sk => env.available.contains sk)
      let sb := installBaseAll toRestore sr.1
      let oldPaths := ((oldManifest.bind (fun m => m.replaces)).getD []).map (fun pb => pb.1)
      let oldCustom := ((oldManifest.map (fun m => m.skills)).getD []).filter
        (fun sk => !(oldPaths.contains sk))
      let sc := removeSkillsAll oldCustom sb.1
      (sc.1, s1.2 ++ sr.2 ++ sb.2 ++ sc.2)
    else (w.agents, [])
  let entries := manifest.replaces.getD []
  let c2 :=
    if entries = [] then (c1.1, [], [])
    else
      let i := installExtAll env manifest.name (entries.map (fun pb => pb.1)) entries c1.1
      let pr := processEntries env c1.1.length i.2.1 i.1 entries
      (pr.1, pr.2.1, i.2.2 ++ pr.2.2)
  { name := manifest.name, source := source, version := manifest.version,
    replacedSkills := c2.2.1 }

/-- `extensionAddCommand` from the source, with source resolution already
performed (it touches no project state) and the skill installer driven by
the `env` oracle. -/
def extensionAddCommand (env : Env) (w : World) (resolved : Resolved)
    (source : String) : Outcome :=
  let manifest := resolved.manifest
  let exts := w.extensions
  let isReinstall := exts.any (fun r => r.name == manifest.name)
  let oldRecord := exts.find? (fun r => r.name == manifest.name)
  let oldManifest :=
    if isReinstall then (alookup manifest.name w.storage).bind (fun st => st.manifest)
    else none
  match conflictCheck manifest exts with
  | some b => { world := w, events := [], err := some ("Conflict: skill " ++ b ++ " is already replaced") }
  | none =>
    let storage1 :=
      aset w.storage manifest.name { manifest := some manifest, files := resolved.files }
    let ev0 := [Event.storageCommit manifest.name]
    let c1 :=
      if isReinstall then
        let s1 := stripByNameAll manifest.name w.agents
        let old := (oldRecord.map (fun r => r.replacedSkills)).getD []
        let sr := removeSkillsAll old s1.1
        let toRestore := old.filter (fun sk => env.available.contains sk)
        let sb := installBaseAll toRestore sr.1
        let oldPaths := ((oldManifest.bind (fun m => m.replaces)).getD []).map (fun pb => pb.1)
        let oldCustom := ((oldManifest.map (fun m => m.skills)).getD []).filter
          (fun sk => !(oldPaths.contains sk))
        let sc := removeSkillsAll oldCustom sb.1
        (sc.1, s1.2 ++ sr.2 ++ sb.2 ++ sc.2)
      else (w.agents, [])
    let entries := manifest.replaces.getD []
    let c2 :=
      if entries = [] then (c1.1, [], [])
      else
        let i := installExtAll env manifest.name (entries.map (fun pb => pb.1)) entries c1.1
        let pr := processEntries env c1.1.length i.2.1 i.1 entries
        (pr.1, pr.2.1, i.2.2 ++ pr.2.2)
    let replacesPaths := entries.map (fun pb => pb.1)
    let customs := manifest.skills.filter (fun sk => !(replacesPaths.contains sk))
    let c3 :=
      if customs = [] then (c2.1, [])
      else
        let i := installExtAll env manifest.name customs [] c2.1
        (i.1, i.2.2)
    let record : ExtRecord :=
      { name := manifest.name, source := source, version := manifest.version,
        replacedSkills := c2.2.1 }
    let exts2 := updateRecord exts record
    let c4 := applyInjAll manifest.name resolved.files manifest.injections c3.1
    { world := { agents := c4.1, extensions := exts2, storage := storage1 },
      events := ev0 ++ c1.2 ++ c2.2.2 ++ c3.2 ++ [Event.saveStore exts2] ++ c4.2,
      err := none }

/-- `extensionRemoveCommand` from the source. -/
def extensionRemoveCommand (env : Env) (w : World) (name : String) : Outcome :=
  match findRemove w.extensions name with
  | none => { world := w, events := [], err := some "not installed" }
  | some (extRecord, others) =>
      let manifest? := (alookup name w.storage).bind (fun st => st.manifest)
      let c1 :=
        match manifest? with
        | some m => stripDirAll name m.injections w.agents
        | none => stripByNameAll name w.agents
      let c2 := removeSkillsAll extRecord.replacedSkills c1.1
      let customPaths :=
        match manifest? with
        | some m =>
            m.skills.filter (fun sk =>
              !(((m.replaces.getD []).map (fun pb => pb.1)).contains sk))
        | none => []
      let c3 := removeSkillsAll customPaths c2.1
      let stillReplaced := others.foldl (fun acc r => acc ++ r.replacedSkills) []
      let toRestore := extRecord.replacedSkills.filter
        (fun sk => env.available.contains sk && !(stillReplaced.contains sk))
      let c4 := installBaseAll toRestore c3.1
      { world := { agents := c4.1, extensions := others, storage := aremove w.storage name },
        events := c1.2 ++ c2.2 ++ c3.2 ++ c4.2 ++
          [Event.storageRemove name, Event.saveStore others],
        err := none }

/-- The per-record replacement reprocessing loop of `updateCommand`:
returns the updated records, the released (failed) ids in order, the
threaded agents, and the events. -/
def updateExts (env : Env) (storage : List (String × StoredExt)) :
    List AgentState → List ExtRecord →
      List ExtRecord × List String × List AgentState × List Event
  | ags, [] => ([], [], ags, [])
  | ags, ext :: rest =>
      if ext.replacedSkills = [] then
        let r := updateExts env storage ags rest
        (ext :: r.1, r.2.1, r.2.2.1, r.2.2.2)
      else
        match ((alookup ext.name storage).bind (fun st => st.manifest)).bind
            (fun m => m.replaces) with
        | none =>
            let r := updateExts env storage ags rest
            ({ ext with replacedSkills := [] } :: r.1,
              ext.replacedSkills ++ r.2.1, r.2.2.1, r.2.2.2)
        | some entries =>
            let manifestBases := entries.map (fun pb => pb.2)
            let replacePaths := (entries.filter
              (fun pb => ext.replacedSkills.contains pb.2)).map (fun pb => pb.1)
            let orphaned := ext.replacedSkills.filter
              (fun sk => !(manifestBases.contains sk))
            let kept := ext.replacedSkills.filter
              (fun sk => manifestBases.contains sk)
            let c1 :=
              if replacePaths = [] then (ags, [])
              else
                let i := installExtAll env ext.name replacePaths entries ags
                (i.1, i.2.2)
            let r := updateExts env storage c1.1 rest
            ({ ext with replacedSkills := kept } :: r.1,
              orphaned ++ r.2.1, r.2.2.1, c1.2 ++ r.2.2.2)

/-- Apply every registered extension's stored injections to one agent
(`applyExtensionInjections` via `loadAllExtensions`: unreadable storage is
skipped). -/
def applyExtsToAgent (storage : List (String × StoredExt)) (a : AgentState) :
    List ExtRecord → AgentState × List Event
  | [] => (a, [])
  | rec1 :: rest =>
      match alookup rec1.name storage with
      | none => applyExtsToAgent storage a rest
      | some st =>
          match st.manifest with
          | none => applyExtsToAgent storage a rest
          | some m =>
              let i := applyDirectives m.name st.files a m.injections
              let r := applyExtsToAgent storage i.1 rest
              (r.1, i.2 ++ r.2)

/-- Per-agent loop of the injection re-apply phase of `updateCommand`. -/
def reapplyInjections (storage : List (String × StoredExt))
    (recs : List ExtRecord) : List AgentState → List AgentState × List Event
  | [] => ([], [])
  | a :: rest =>
      let i := applyExtsToAgent storage a recs
      let r := reapplyInjections storage recs rest
      (i.1 :: r.1, i.2 ++ r.2)

/-- `updateCommand` from the source: bulk base refresh skipping the owned
union, per-record replacement reprocessing with the broken-manifest
fallback, restoration of released ids not still owned, injection re-apply,
then persist. -/
def updateCommand (env : Env) (w : World) : Outcome :=
  let allReplaced := w.extensions.foldl (fun acc r => acc ++ r.replacedSkills) []
  let refresh := env.available.filter (fun sk => !(allReplaced.contains sk))
  let c1 := installBaseAll refresh w.agents
  let u := updateExts env w.storage c1.1 w.extensions
  let stillReplaced := u.1.foldl (fun acc r => acc ++ r.replacedSkills) []
  let toRestore := u.2.1.filter (fun sk => !(stillReplaced.contains sk))
  let c3 := installBaseAll toRestore u.2.2.1
  let c4 := reapplyInjections w.storage u.1 c3.1
  { world := { agents := c4.1, extensions := u.1, storage := w.storage },
    events := c1.2 ++ u.2.2.2 ++ c3.2 ++ c4.2 ++ [Event.saveStore u.1],
    err := none }

/-- One reconciler operation (source resolution inputs included). -/
inductive Op
  | add (resolved : Resolved) (source : String)
  | update
  | remove (name : String)

/-- Run one operation, keeping the resulting world (on error the world of
the outcome is the untouched input world). -/
def runOp (env : Env) (w : World) : Op → World
  | .add r src => (extensionAddCommand env w r src).world
  | .update => (updateCommand env w).world
  | .remove n => (extensionRemoveCommand env w n).world

/-- Run a sequence of operations. -/
def runOps (env : Env) : World → List Op → World
  | w, [] => w
  | w, op :: rest => runOps env (runOp env w op) rest

/-- I1 as a boolean: no base id owned by two records (pairwise disjoint
`replacedSkills`). -/
def recordsDisjoint : List ExtRecord → Bool
  | [] => true
  | r :: rest =>
      rest.all (fun r2 => r.replacedSkills.all
        (fun b => !(r2.replacedSkills.contains b))) && recordsDisjoint rest

/-- Record names are pairwise distinct (store identity is the name). -/
def namesNodup : List ExtRecord → Bool
  | [] => true
  | r :: rest => !(rest.any (fun r2 => r2.name == r.name)) && namesNodup rest

/-- The record transformation performed by the per-record update loop,
independent of the threaded agents: untouched when nothing is owned, fully
cleared when the durable manifest or its replaces section is unreadable,
else trimmed to the ids the manifest still declares. -/
def updateRecordOnly (storage : List (String × StoredExt)) (ext : ExtRecord) :
    ExtRecord :=
  if ext.replacedSkills = [] then ext
  else
    match ((alookup ext.name storage).bind (fun st => st.manifest)).bind
        (fun m => m.replaces) with
    | none => { ext with replacedSkills := [] }
    | some entries =>
        let kept := ext.replacedSkills.filter
          (fun sk => (entries.map (fun pb => pb.2)).contains sk)
        { ext with replacedSkills := kept }

/-- The ids a record releases during update: everything when the manifest is
unreadable, else the owned ids the manifest no longer declares. -/
def releasedOf (storage : List (String × StoredExt)) (ext : ExtRecord) :
    List String :=
  if ext.replacedSkills = [] then []
  else
    match ((alookup ext.name storage).bind (fun st => st.manifest)).bind
        (fun m => m.replaces) with
    | none => ext.replacedSkills
    | some entries =>
        ext.replacedSkills.filter
          (fun sk => !((entries.map (fun pb => pb.2)).contains sk))

/-! ### Concrete fixtures used by witnesses and counterexamples -/

/-- An oracle for which every skill install succeeds, with one base skill. -/
def exEnvTrue : Env := { available := ["aif-commit"], instOk := fun _ _ => true }

/-- An oracle that succeeds only on agent `a`. -/
def exEnvPartial : Env :=
  { available := ["aif-commit"], instOk := fun aid _ => aid == "a" }

/-- An oracle with an empty base-skill catalog. -/
def exEnvEmpty : Env := { available := [], instOk := fun _ _ => true }

/-- A record of another extension owning the base skill `aif-commit`. -/
def exRecOther : ExtRecord :=
  { name := "OTHER", source := "s", version := "1", replacedSkills := ["aif-commit"] }

/-- A manifest replacing `aif-commit`. -/
def exManifestRepl : Manifest :=
  { name := "E1", version := "1.0", skills := ["skills/my-commit"],
    replaces := some [("skills/my-commit", "aif-commit")], injections := [] }

/-- The resolved form of `exManifestRepl`. -/
def exResolvedRepl : Resolved := { manifest := exManifestRepl, files := [] }

/-- Agent `a` with the base `aif-commit` and one injectable file. -/
def exAgentA : AgentState :=
  { id := "a", skills := [("aif-commit", SkillOrigin.base)],
    files := [("aif-implement", "body\n".toList)] }

/-- Agent `b` with nothing installed. -/
def exAgentB : AgentState := { id := "b", skills := [], files := [] }

/-- A world where `OTHER` already owns `aif-commit`. -/
def exWorldOther : World := { agents := [], extensions := [exRecOther], storage := [] }

/-- A world with two fresh agents. -/
def exWorldAB : World :=
  { agents := [exAgentA, exAgentB], extensions := [], storage := [] }

/-- A manifest with one injection directive and no replacements. -/
def exManifestInj : Manifest :=
  { name := "E1", version := "1.0", skills := [], replaces := none,
    injections :=
      [{ target := "aif-implement", position := Pos.append, file := "inj.md" }] }

/-- The resolved form of `exManifestInj`, carrying the injection content. -/
def exResolvedInj : Resolved :=
  { manifest := exManifestInj, files := [("inj.md", "extra\n".toList)] }

/-- A world with agent `a` only. -/
def exWorldA : World := { agents := [exAgentA], extensions := [], storage := [] }

/-- A record owning a base id `ghost` that is not in the catalog. -/
def exRecGhost : ExtRecord :=
  { name := "E1", source := "s", version := "1", replacedSkills := ["ghost"] }

/-- A world where `E1` owns `ghost` but its durable manifest is missing. -/
def exWorldGhost : World :=
  { agents := [exAgentA], extensions := [exRecGhost], storage := [] }

/-- A stale marker block of `E1` with a triple not declared by any
directive. -/
def exStaleBlock : List Char :=
  ("<!-- aif-ext:E1:other:append:start -->\nx\n" ++
    "<!-- aif-ext:E1:other:append:end -->\n").toList

/-- Agent holding the stale block. -/
def exAgentStale : AgentState :=
  { id := "a", skills := [], files := [("f", exStaleBlock)] }

/-- A loadable manifest of `E1` declaring no injections. -/
def exManifestNoInj : Manifest :=
  { name := "E1", version := "1", skills := [], replaces := none, injections := [] }

/-- A world where `E1` is recorded with a loadable manifest but a stale
marker block sits in an agent file. -/
def exWorldStale : World :=
  { agents := [exAgentStale],
    extensions :=
      [{ name := "E1", source := "s", version := "1", replacedSkills := [] }],
    storage := [("E1", { manifest := some exManifestNoInj, files := [] })] }

/-- A loadable manifest of `E1` that no longer declares the owned id
`ghost` (it declares an unrelated replacement instead). -/
def exManifestDropped : Manifest :=
  { name := "E1", version := "2", skills := [],
    replaces := some [("skills/zzz", "zzz-skill")], injections := [] }

/-- A manifest of `OTHER` still declaring its owned replacement. -/
def exManifestOther : Manifest :=
  { name := "OTHER", version := "1", skills := [],
    replaces := some [("skills/my-commit", "aif-commit")], injections := [] }

/-- A world where `E1` owns the uncatalogued id `ghost`, its loadable
manifest has dropped `ghost`, and `OTHER` still owns `aif-commit`. -/
def exWorldGhost2 : World :=
  { agents := [exAgentA],
    extensions := [exRecGhost, exRecOther],
    storage :=
      [("E1", { manifest := some exManifestDropped, files := [] }),
       ("OTHER", { manifest := some exManifestOther, files := [] })] }

/-- Adversarial file content: a fragment of a start marker, a complete
block of `E1`, the rest of the start-marker fragment, and a lone end
marker.  The single scrub pass removes the complete block, gluing the
fragments into a new well-formed block. -/
def exGlueContent : List Char :=
  ("<!-- aif-e" ++
   "\n<!-- aif-ext:E1:a:b:start -->\nB\n<!-- aif-ext:E1:a:b:end -->\n" ++
   "xt:E1:c:d:start -->\nx\n<!-- aif-ext:E1:q:r:end -->\n").toList

/-- What the scrub leaves of `exGlueContent`: a complete well-formed block
of `E1`. -/
def exGlueResult : List Char :=
  "<!-- aif-ext:E1:c:d:start -->\nx\n<!-- aif-ext:E1:q:r:end -->\n".toList

/-- Agent holding the adversarial file. -/
def exAgentGlue : AgentState :=
  { id := "a", skills := [], files := [("f", exGlueContent)] }

/-- A world where `E1` is recorded with no durable manifest (the fallback
scan runs on remove) and an agent file holds the adversarial content. -/
def exWorldGlue : World :=
  { agents := [exAgentGlue],
    extensions :=
      [{ name := "E1", source := "s", version := "1", replacedSkills := [] }],
    storage := [] }

/-- A well-formed undeclared block of `E1` between token-free text, the
shape the fallback scan is proven to strip. -/
def exFallbackContent : List Char :=
  "intro".toList ++ '\n' ::
    (startMarker "E1".toList "other".toList Pos.append.toChars ++ '\n' ::
      ("body".toList ++ '\n' ::
        (endMarker "E1".toList "other".toList Pos.append.toChars ++ '\n' ::
          "outro\n".toList)))

/-- Agent holding the undeclared block. -/
def exAgentFb : AgentState :=
  { id := "a", skills := [], files := [("f", exFallbackContent)] }

/-- A world where `E1` is recorded with no durable manifest and the agent
file holds an undeclared block amid token-free text. -/
def exWorldFallback : World :=
  { agents := [exAgentFb],
    extensions :=
      [{ name := "E1", source := "s", version := "1", replacedSkills := [] }],
    storage := [] }

/-- A record of `E1` owning `aif-commit`. -/
def exRecCommit : ExtRecord :=
  { name := "E1", source := "s", version := "1", replacedSkills := ["aif-commit"] }

/-- A world where `E1` owns `aif-commit` on agent `a`. -/
def exWorldCommit : World :=
  { agents := [exAgentA], extensions := [exRecCommit], storage := [] }

/-- A completely empty world: no agents, no records, no storage. -/
def exWorldEmpty : World := { agents := [], extensions := [], storage := [] }

/-- The result of applying the declared append directive of `E1` to the
clean file `body\n`. -/
def exInjectedContent : List Char :=
  applyInjection "body\n".toList "extra\n".toList Pos.append "E1".toList
    "aif-implement".toList

/-- Agent whose target file holds the injected content. -/
def exAgentInj : AgentState :=
  { id := "a", skills := [], files := [("aif-implement", exInjectedContent)] }

/-- A world where `E1` is recorded, its manifest (declaring one append
directive) is loadable, and the agent file carries the injected block. -/
def exWorldInj : World :=
  { agents := [exAgentInj],
    extensions :=
      [{ name := "E1", source := "s", version := "1", replacedSkills := [] }],
    storage :=
      [("E1", { manifest := some exManifestInj,
                files := [("inj.md", "extra\n".toList)] })] }

/-! ### Basic facts about the prefix and substring tests -/

theorem isPre_iff (p l : List Char) : isPre p l = true ↔ ∃ t, l = p ++ t := by
  induction p generalizing l with
  | nil => simp [isPre]
  | cons a as ih =>
    cases l with
    | nil =>
      simp only [isPre]
      constructor
      · intro h
        exact absurd h (by simp)
      · rintro ⟨t, h⟩
        exact absurd h (by simp)
    | cons b bs =>
      simp only [isPre, Bool.and_eq_true, beq_iff_eq, List.cons_append, List.cons_eq_cons, ih]
      constructor
      · rintro ⟨rfl, t, rfl⟩
        exact ⟨t, rfl, rfl⟩
      · rintro ⟨t, rfl, rfl⟩
        exact ⟨rfl, t, rfl⟩

theorem isPre_append (p t : List Char) : isPre p (p ++ t) = true :=
  (isPre_iff p (p ++ t)).mpr ⟨t, rfl⟩

theorem containsSub_iff (p l : List Char) :
    containsSub p l = true ↔ ∃ a b, l = a ++ (p ++ b) := by
  induction l with
  | nil =>
    simp only [containsSub, List.isEmpty_iff]
    constructor
    · rintro rfl
      exact ⟨[], [], rfl⟩
    · rintro ⟨a, b, h⟩
      rcases List.append_eq_nil.mp h.symm with ⟨rfl, h2⟩
      rcases List.append_eq_nil.mp h2 with ⟨rfl, rfl⟩
      rfl
  | cons c t ih =>
    simp only [containsSub, Bool.or_eq_true, isPre_iff, ih]
    constructor
    · rintro (⟨t2, h⟩ | ⟨a, b, rfl⟩)
      · exact ⟨[], t2, by simpa using h⟩
      · exact ⟨c :: a, b, rfl⟩
    · rintro ⟨a, b, h⟩
      cases a with
      | nil => exact Or.inl ⟨b, by simpa using h⟩
      | cons x xs =>
        rw [List.cons_append, List.cons_eq_cons] at h
        exact Or.inr ⟨xs, b, h.2⟩

theorem containsSub_ne_nil {p : List Char} {l : List Char}
    (h : containsSub p l = false) : p ≠ [] := by
  intro hp
  subst hp
  cases l with
  | nil => simp [containsSub] at h
  | cons c t => simp [containsSub, isPre] at h

theorem not_isPre_of_not_containsSub {p l : List Char}
    (h : containsSub p l = false) : isPre p l = false := by
  cases hp : isPre p l with
  | false => rfl
  | true =>
    obtain ⟨t, rfl⟩ := (isPre_iff p l).mp hp
    rw [(containsSub_iff p (p ++ t)).mpr ⟨[], t, rfl⟩] at h
    exact absurd h (by simp)

theorem containsSub_tail {p : List Char} {c : Char} {t : List Char}
    (h : containsSub p (c :: t) = false) : containsSub p t = false := by
  rw [containsSub, Bool.or_eq_false_iff] at h
  exact h.2

theorem containsSub_false_left {p x y : List Char}
    (h : containsSub p (x ++ y) = false) : containsSub p x = false := by
  cases hx : containsSub p x with
  | false => rfl
  | true =>
    obtain ⟨a, b, rfl⟩ := (containsSub_iff p x).mp hx
    rw [(containsSub_iff p _).mpr ⟨a, b ++ y, by simp⟩] at h
    exact absurd h (by simp)

theorem containsSub_false_right {p x y : List Char}
    (h : containsSub p (x ++ y) = false) : containsSub p y = false := by
  cases hy : containsSub p y with
  | false => rfl
  | true =>
    obtain ⟨a, b, rfl⟩ := (containsSub_iff p y).mp hy
    rw [(containsSub_iff p _).mpr ⟨x ++ a, b, by simp⟩] at h
    exact absurd h (by simp)

theorem containsSub_snoc_not_mem {p x : List Char} {c : Char}
    (h : containsSub p x = false) (hc : c ∉ p) :
    containsSub p (x ++ [c]) = false := by
  cases hs : containsSub p (x ++ [c]) with
  | false => rfl
  | true =>
    exfalso
    obtain ⟨a, b, heq⟩ := (containsSub_iff p _).mp hs
    rcases List.eq_nil_or_concat b with rfl | ⟨b2, cb, rfl⟩
    · rcases List.eq_nil_or_concat p with rfl | ⟨p2, pc, rfl⟩
      · exact absurd rfl (containsSub_ne_nil h)
      · rw [List.concat_eq_append] at heq hc
        rw [List.append_nil, ← List.append_assoc] at heq
        obtain ⟨-, h2⟩ := List.append_inj' heq rfl
        rw [List.cons_eq_cons] at h2
        exact hc (by simp [h2.1])
    · rw [List.concat_eq_append] at heq
      rw [← List.append_assoc, ← List.append_assoc] at heq
      obtain ⟨h1, -⟩ := List.append_inj' heq rfl
      rw [List.append_assoc] at h1
      rw [h1, (containsSub_iff p _).mpr ⟨a, b2, rfl⟩] at h
      exact absurd h (by simp)

theorem containsSub_cons_not_mem {p x : List Char} {c : Char}
    (h : containsSub p x = false) (hc : c ∉ p) :
    containsSub p (c :: x) = false := by
  rw [containsSub, Bool.or_eq_false_iff]
  refine ⟨?_, h⟩
  cases hp : isPre p (c :: x) with
  | false => rfl
  | true =>
    exfalso
    obtain ⟨t, ht⟩ := (isPre_iff p _).mp hp
    cases p with
    | nil => exact absurd rfl (containsSub_ne_nil h)
    | cons p0 ps =>
      rw [List.cons_append, List.cons_eq_cons] at ht
      exact hc (by simp [ht.1.symm])

theorem containsSub_of_isPre {p l : List Char} (h : isPre p l = true) :
    containsSub p l = true := by
  obtain ⟨t, rfl⟩ := (isPre_iff p l).mp h
  exact (containsSub_iff p _).mpr ⟨[], t, rfl⟩

/-! ### The marker scanner on sentinel-free text and on a sentinel block -/

theorem isPre_split {p a r : List Char} (h : isPre p (a ++ r) = true) :
    isPre p a = true ∨ ∃ k, 0 < k ∧ p = a ++ r.take k := by
  obtain ⟨t, ht⟩ := (isPre_iff p _).mp h
  have htake : (a ++ r).take p.length = p := by
    rw [ht, List.take_left]
  rw [List.take_append_eq_append_take] at htake
  by_cases hle : p.length ≤ a.length
  · left
    have h0 : p.length - a.length = 0 := by omega
    rw [h0, List.take_zero, List.append_nil] at htake
    refine (isPre_iff p a).mpr ⟨a.drop p.length, ?_⟩
    conv_lhs => rw [← List.take_append_drop p.length a, htake]
  · right
    rw [List.take_of_length_le (by omega)] at htake
    exact ⟨p.length - a.length, by omega, htake.symm⟩

theorem isPre_false_before_nl {s a r : List Char}
    (hSnl : '\n' ∉ s) (ha : containsSub s a = false) :
    isPre s (a ++ '\n' :: r) = false := by
  cases hp : isPre s (a ++ '\n' :: r) with
  | false => rfl
  | true =>
    exfalso
    rcases isPre_split hp with h | ⟨k, hk, hs⟩
    · rw [containsSub_of_isPre h] at ha
      exact absurd ha (by simp)
    · obtain ⟨k2, rfl⟩ : ∃ k2, k = k2 + 1 := ⟨k - 1, by omega⟩
      rw [List.take_succ_cons] at hs
      exact hSnl (by simp [hs])

theorem matchCore_none {s e l : List Char} (h : isPre s l = false) :
    matchCore s e l = none := by
  simp [matchCore, h]

theorem matchMarker_none_clean {s e l : List Char}
    (h : containsSub s l = false) : matchMarker s e l = none := by
  cases l with
  | nil =>
    exact matchCore_none (not_isPre_of_not_containsSub h)
  | cons c rest =>
    rw [matchMarker]
    by_cases hc : c = '\n'
    · rw [if_pos hc,
        matchCore_none (not_isPre_of_not_containsSub (containsSub_tail h)),
        matchCore_none (not_isPre_of_not_containsSub h)]
    · rw [if_neg hc, matchCore_none (not_isPre_of_not_containsSub h)]

theorem replaceMarkerAux_clean {s e : List Char} :
    ∀ (f : Nat) (l : List Char), containsSub s l = false →
      replaceMarkerAux s e f l = l := by
  intro f
  induction f with
  | zero => intro l _; rfl
  | succ f2 ih =>
    intro l hl
    cases l with
    | nil => rfl
    | cons c rest =>
      rw [replaceMarkerAux, matchMarker_none_clean hl]
      rw [ih rest (containsSub_tail hl)]

theorem replaceMarker_clean {s e l : List Char}
    (h : containsSub s l = false) : replaceMarker s e l = l :=
  replaceMarkerAux_clean l.length l h

theorem findClose_strip {e : List Char} (m c : List Char)
    (hEnl : '\n' ∉ e)
    (hm : containsSub ('\n' :: e) m = false) :
    findClose e (m ++ '\n' :: (e ++ '\n' :: c)) = some c := by
  induction m with
  | nil =>
    rw [List.nil_append, findClose, if_pos ⟨rfl, isPre_append e ('\n' :: c)⟩,
      List.drop_left, dropNl, if_pos rfl]
  | cons ch m2 ih =>
    rw [List.cons_append, findClose, if_neg ?hneg]
    · exact ih (containsSub_tail hm)
    case hneg =>
      rintro ⟨rfl, hpre⟩
      rcases isPre_split hpre with h | ⟨k, hk, he⟩
      · have hp2 : isPre ('\n' :: e) ('\n' :: m2) = true := by
          rw [isPre, h]
          decide
        rw [containsSub, hp2] at hm
        exact absurd hm (by simp)
      · obtain ⟨k2, rfl⟩ : ∃ k2, k = k2 + 1 := ⟨k - 1, by omega⟩
        rw [List.take_succ_cons] at he
        apply hEnl
        rw [he]
        simp

theorem matchCore_block {s e : List Char} (m c : List Char)
    (hEnl : '\n' ∉ e) (hm : containsSub ('\n' :: e) m = false) :
    matchCore s e (s ++ '\n' :: (m ++ '\n' :: (e ++ '\n' :: c))) = some c := by
  rw [matchCore, if_pos (isPre_append s _), List.drop_left]
  exact if_pos rfl |>.trans (findClose_strip m c hEnl hm)

theorem matchMarker_none_before_nl {s e : List Char} (hSnl : '\n' ∉ s) :
    ∀ (a r : List Char), a ≠ [] → containsSub s a = false →
      matchMarker s e (a ++ '\n' :: r) = none := by
  intro a r hne ha
  cases a with
  | nil => exact absurd rfl hne
  | cons ch a2 =>
    rw [List.cons_append, matchMarker]
    by_cases hc : ch = '\n'
    · rw [if_pos hc, matchCore_none (isPre_false_before_nl hSnl (containsSub_tail ha))]
      have : (ch :: (a2 ++ '\n' :: r)) = (ch :: a2) ++ '\n' :: r := rfl
      rw [this, matchCore_none (isPre_false_before_nl hSnl ha)]
    · rw [if_neg hc]
      have : (ch :: (a2 ++ '\n' :: r)) = (ch :: a2) ++ '\n' :: r := rfl
      rw [this, matchCore_none (isPre_false_before_nl hSnl ha)]

theorem dropNl_length_le (l : List Char) : (dropNl l).length ≤ l.length := by
  cases l with
  | nil => exact Nat.le_refl _
  | cons c t =>
    rw [dropNl]
    split
    · simp
    · exact Nat.le_refl _

theorem findClose_length {e : List Char} :
    ∀ {l r : List Char}, findClose e l = some r → r.length < l.length := by
  intro l
  induction l with
  | nil => intro r h; exact absurd h (by simp [findClose])
  | cons c rest ih =>
    intro r h
    rw [findClose] at h
    split at h
    · have h2 : r = dropNl (rest.drop e.length) := (Option.some_inj.mp h).symm
      have hd : (dropNl (rest.drop e.length)).length ≤ (rest.drop e.length).length :=
        dropNl_length_le _
      have hdr : (rest.drop e.length).length = rest.length - e.length :=
        List.length_drop _ _
      rw [h2]
      simp only [List.length_cons]
      omega
    · have := ih h
      simp only [List.length_cons]
      omega

theorem matchCore_length {s e : List Char} {l r : List Char}
    (h : matchCore s e l = some r) : r.length < l.length := by
  rw [matchCore] at h
  split at h
  · split at h
    · exact absurd h (by simp)
    · next c rest heq =>
      split at h
      · have h1 := findClose_length h
        have h2 : (l.drop s.length).length = l.length - s.length := List.length_drop _ _
        rw [heq] at h2
        simp only [List.length_cons] at h2
        omega
      · exact absurd h (by simp)
  · exact absurd h (by simp)

theorem matchMarker_length {s e : List Char} {l r : List Char}
    (h : matchMarker s e l = some r) : r.length < l.length := by
  cases l with
  | nil => exact matchCore_length h
  | cons c rest =>
    rw [matchMarker] at h
    split at h
    · cases hc : matchCore s e rest with
      | some r2 =>
        simp only [hc, Option.some_inj] at h
        subst h
        have h2 := matchCore_length hc
        simp only [List.length_cons]
        omega
      | none =>
        simp only [hc] at h
        exact matchCore_length h
    · exact matchCore_length h

theorem replaceMarkerAux_fuel {s e : List Char} :
    ∀ (f : Nat) (l : List Char), l.length ≤ f →
      replaceMarkerAux s e f l = replaceMarkerAux s e l.length l := by
  intro f
  induction f using Nat.strong_induction_on with
  | _ f ih =>
    cases f with
    | zero =>
      intro l hl
      have : l = [] := List.eq_nil_of_length_eq_zero (Nat.le_zero.mp hl)
      subst this
      rfl
    | succ f2 =>
      intro l hl
      cases l with
      | nil => rfl
      | cons c rest =>
        simp only [List.length_cons] at hl ⊢
        cases hm : matchMarker s e (c :: rest) with
        | some rem =>
          have hlt := matchMarker_length hm
          simp only [List.length_cons] at hlt
          simp only [replaceMarkerAux, hm]
          rw [ih f2 (by omega) rem (by omega),
            ih rest.length (by omega) rem (by omega)]
        | none =>
          simp only [replaceMarkerAux, hm]
          rw [ih f2 (by omega) rest (by omega)]

theorem replaceMarkerAux_block {s e : List Char}
    (hSnl : '\n' ∉ s) (hEnl : '\n' ∉ e) :
    ∀ (a : List Char), ∀ (m c : List Char), containsSub s a = false →
      containsSub ('\n' :: e) m = false →
      ∀ (f : Nat),
        (a ++ '\n' :: (s ++ '\n' :: (m ++ '\n' :: (e ++ '\n' :: c)))).length ≤ f →
        replaceMarkerAux s e f (a ++ '\n' :: (s ++ '\n' :: (m ++ '\n' :: (e ++ '\n' :: c)))) =
          a ++ replaceMarker s e c := by
  intro a
  induction a with
  | nil =>
    intro m c ha hm f hf
    simp only [List.nil_append] at hf ⊢
    cases f with
    | zero => simp at hf
    | succ f2 =>
      have hmm : matchMarker s e ('\n' :: (s ++ '\n' :: (m ++ '\n' :: (e ++ '\n' :: c)))) =
          some c := by
        rw [matchMarker, if_pos rfl]
        simp only [matchCore_block m c hEnl hm]
      simp only [replaceMarkerAux, hmm]
      simp only [List.length_cons, List.length_append] at hf
      rw [replaceMarkerAux_fuel f2 c (by omega)]
      rfl
  | cons ch a2 ih =>
    intro m c ha hm f hf
    simp only [List.cons_append, List.length_cons] at hf ⊢
    cases f with
    | zero => omega
    | succ f2 =>
      have hnone : matchMarker s e (ch :: (a2 ++ '\n' :: (s ++ '\n' :: (m ++ '\n' :: (e ++ '\n' :: c))))) = none := by
        have hsplit : (ch :: (a2 ++ '\n' :: (s ++ '\n' :: (m ++ '\n' :: (e ++ '\n' :: c))))) =
            (ch :: a2) ++ '\n' :: (s ++ '\n' :: (m ++ '\n' :: (e ++ '\n' :: c))) := rfl
        rw [hsplit]
        exact matchMarker_none_before_nl hSnl (ch :: a2) _ (by simp) ha
      simp only [replaceMarkerAux, hnone]
      rw [ih m c (containsSub_tail ha) hm f2 (by omega)]

theorem replaceMarker_block {s e : List Char}
    (hSnl : '\n' ∉ s) (hEnl : '\n' ∉ e)
    (a m c : List Char) (ha : containsSub s a = false)
    (hm : containsSub ('\n' :: e) m = false) :
    replaceMarker s e (a ++ '\n' :: (s ++ '\n' :: (m ++ '\n' :: (e ++ '\n' :: c)))) =
      a ++ replaceMarker s e c :=
  replaceMarkerAux_block hSnl hEnl a m c ha hm _ (Nat.le_refl _)

theorem replaceMarker_block_head {s e : List Char}
    (hSne : s ≠ []) (hSnl : '\n' ∉ s) (hEnl : '\n' ∉ e)
    (m c : List Char) (hm : containsSub ('\n' :: e) m = false) :
    replaceMarker s e (s ++ '\n' :: (m ++ '\n' :: (e ++ '\n' :: c))) =
      replaceMarker s e c := by
  cases hs : s with
  | nil => exact absurd hs hSne
  | cons s0 s2 =>
    subst hs
    rw [replaceMarker]
    have hlist : (s0 :: s2) ++ '\n' :: (m ++ '\n' :: (e ++ '\n' :: c)) =
        s0 :: (s2 ++ '\n' :: (m ++ '\n' :: (e ++ '\n' :: c))) := rfl
    have hmm : matchMarker (s0 :: s2) e
        (s0 :: (s2 ++ '\n' :: (m ++ '\n' :: (e ++ '\n' :: c)))) = some c := by
      rw [matchMarker, if_neg (by simp at hSnl; exact fun h => hSnl.1 h.symm)]
      rw [← hlist]
      exact matchCore_block m c hEnl hm
    rw [hlist]
    have hlen : ((s0 :: (s2 ++ '\n' :: (m ++ '\n' :: (e ++ '\n' :: c))))).length =
        (s2 ++ '\n' :: (m ++ '\n' :: (e ++ '\n' :: c))).length + 1 := rfl
    rw [hlen]
    simp only [replaceMarkerAux, hmm]
    rw [replaceMarkerAux_fuel _ c
      (by simp only [List.length_append, List.length_cons]; omega)]
    rfl

/-! ### trimEnd and marker facts -/

theorem trimEnd_append_exists (l : List Char) : ∃ t, l = trimEnd l ++ t := by
  refine ⟨(l.reverse.takeWhile jsWhitespace).reverse, ?_⟩
  rw [trimEnd, ← List.reverse_append, List.takeWhile_append_dropWhile, List.reverse_reverse]

theorem dropWhile_self {p : Char → Bool} :
    ∀ (l : List Char), List.dropWhile p (List.dropWhile p l) = List.dropWhile p l := by
  intro l
  induction l with
  | nil => rfl
  | cons c t ih =>
    rw [List.dropWhile_cons]
    split
    · exact ih
    · next hc =>
      rw [List.dropWhile_cons, if_neg hc]

theorem trimEnd_trimEnd (l : List Char) : trimEnd (trimEnd l) = trimEnd l := by
  rw [trimEnd, trimEnd, List.reverse_reverse, dropWhile_self]

theorem trimEnd_snoc_ws {c : Char} (hc : jsWhitespace c = true) (l : List Char) :
    trimEnd (l ++ [c]) = trimEnd l := by
  rw [trimEnd, trimEnd, List.reverse_append]
  simp only [List.reverse_cons, List.reverse_nil, List.nil_append, List.singleton_append]
  rw [List.dropWhile_cons, if_pos hc]

theorem startMarker_cons (ext skill pos : List Char) :
    startMarker ext skill pos =
      '<' :: ("!-- aif-ext:".toList ++ ext ++ [':'] ++ skill ++ [':'] ++ pos ++
        ":start -->".toList) := rfl

theorem endMarker_cons (ext skill pos : List Char) :
    endMarker ext skill pos =
      '<' :: ("!-- aif-ext:".toList ++ ext ++ [':'] ++ skill ++ [':'] ++ pos ++
        ":end -->".toList) := rfl

theorem startMarker_ne_nil (ext skill pos : List Char) :
    startMarker ext skill pos ≠ [] := by
  rw [startMarker_cons]
  simp

theorem nl_not_mem_startMarker {ext skill pos : List Char}
    (he : '\n' ∉ ext) (hs : '\n' ∉ skill) (hp : '\n' ∉ pos) :
    '\n' ∉ startMarker ext skill pos := by
  rw [startMarker]
  intro h
  simp only [List.mem_append] at h
  rcases h with ((((((h | h) | h) | h) | h) | h) | h)
  · exact absurd h (by decide)
  · exact he h
  · exact absurd h (by decide)
  · exact hs h
  · exact absurd h (by decide)
  · exact hp h
  · exact absurd h (by decide)

theorem nl_not_mem_endMarker {ext skill pos : List Char}
    (he : '\n' ∉ ext) (hs : '\n' ∉ skill) (hp : '\n' ∉ pos) :
    '\n' ∉ endMarker ext skill pos := by
  rw [endMarker]
  intro h
  simp only [List.mem_append] at h
  rcases h with ((((((h | h) | h) | h) | h) | h) | h)
  · exact absurd h (by decide)
  · exact he h
  · exact absurd h (by decide)
  · exact hs h
  · exact absurd h (by decide)
  · exact hp h
  · exact absurd h (by decide)

theorem nl_not_mem_posChars (p : Pos) : '\n' ∉ p.toChars := by
  cases p <;> decide

/-! ### Front matter split -/

theorem findFmClose_eq :
    ∀ {l pre rem : List Char}, findFmClose l = some (pre, rem) → l = pre ++ rem := by
  intro l
  induction l with
  | nil => intro pre rem h; exact absurd h (by simp [findFmClose])
  | cons c rest ih =>
    intro pre rem h
    rw [findFmClose] at h
    split at h
    · next hcond =>
      obtain ⟨rfl, hpre⟩ := hcond
      simp only [Option.some_inj, Prod.mk.injEq] at h
      obtain ⟨rfl, rfl⟩ := h
      obtain ⟨t, ht⟩ := (isPre_iff _ _).mp hpre
      have h4 : fmFence.length = 4 := rfl
      rw [List.cons_append, List.cons_eq_cons]
      refine ⟨rfl, ?_⟩
      rw [ht, ← h4, List.drop_left]
    · cases hrec : findFmClose rest with
      | some pr =>
        obtain ⟨pre2, rem2⟩ := pr
        simp only [hrec, Option.some_inj, Prod.mk.injEq] at h
        obtain ⟨rfl, rfl⟩ := h
        rw [List.cons_append, List.cons_eq_cons]
        exact ⟨rfl, ih hrec⟩
      | none => simp [hrec] at h

theorem fmSplit_eq {l fm rest : List Char} (h : fmSplit l = some (fm, rest)) :
    l = fm ++ rest := by
  rw [fmSplit] at h
  split at h
  · next hpre =>
    cases hrec : findFmClose (l.drop 4) with
    | some pr =>
      obtain ⟨pre, rem⟩ := pr
      simp only [hrec, Option.some_inj, Prod.mk.injEq] at h
      obtain ⟨rfl, rfl⟩ := h
      obtain ⟨t, ht⟩ := (isPre_iff _ _).mp hpre
      have h4 : fmFence.length = 4 := rfl
      have hdrop : l.drop 4 = t := by rw [ht, ← h4, List.drop_left]
      have h2 := findFmClose_eq hrec
      rw [ht, List.append_assoc, ← h2, hdrop]
    | none => simp [hrec] at h
  · exact absurd h (by simp)

/-! ### Strip after apply: the three insertion shapes -/

theorem stripApply_append (F B ext skill : List Char)
    (hext : '\n' ∉ ext) (hskill : '\n' ∉ skill)
    (hF : containsSub (startMarker ext skill Pos.append.toChars) F = false)
    (hB : containsSub ('\n' :: endMarker ext skill Pos.append.toChars) (trimEnd B) = false) :
    stripInjection (applyInjection F B .append ext skill) ext skill .append =
      trimEnd F ++ ['\n'] := by
  have hSnl : '\n' ∉ startMarker ext skill Pos.append.toChars :=
    nl_not_mem_startMarker hext hskill (nl_not_mem_posChars _)
  have hEnl : '\n' ∉ endMarker ext skill Pos.append.toChars :=
    nl_not_mem_endMarker hext hskill (nl_not_mem_posChars _)
  have hstrip : stripInjection F ext skill .append = F := replaceMarker_clean hF
  have hTF : containsSub (startMarker ext skill Pos.append.toChars) (trimEnd F) = false := by
    obtain ⟨t, ht⟩ := trimEnd_append_exists F
    rw [ht] at hF
    exact containsSub_false_left hF
  have hA : containsSub (startMarker ext skill Pos.append.toChars)
      (trimEnd F ++ ['\n']) = false :=
    containsSub_snoc_not_mem hTF hSnl
  rw [applyInjection]
  rw [hstrip]
  have hshape : trimEnd F ++ '\n' :: '\n' ::
      ((startMarker ext skill Pos.append.toChars ++
        '\n' :: (trimEnd B ++ '\n' :: endMarker ext skill Pos.append.toChars)) ++ ['\n']) =
      (trimEnd F ++ ['\n']) ++ '\n' :: (startMarker ext skill Pos.append.toChars ++
        '\n' :: (trimEnd B ++ '\n' :: (endMarker ext skill Pos.append.toChars ++ '\n' :: []))) := by
    simp
  rw [stripInjection, hshape, replaceMarker_block hSnl hEnl _ _ _ hA hB]
  simp [replaceMarker, replaceMarkerAux]

theorem stripApply_prepend_fm (F B ext skill : List Char) (fm rest : List Char)
    (hext : '\n' ∉ ext) (hskill : '\n' ∉ skill)
    (hF : containsSub (startMarker ext skill Pos.prepend.toChars) F = false)
    (hB : containsSub ('\n' :: endMarker ext skill Pos.prepend.toChars) (trimEnd B) = false)
    (hfm : fmSplit F = some (fm, rest)) :
    stripInjection (applyInjection F B .prepend ext skill) ext skill .prepend = F := by
  have hSnl : '\n' ∉ startMarker ext skill Pos.prepend.toChars :=
    nl_not_mem_startMarker hext hskill (nl_not_mem_posChars _)
  have hEnl : '\n' ∉ endMarker ext skill Pos.prepend.toChars :=
    nl_not_mem_endMarker hext hskill (nl_not_mem_posChars _)
  have hstrip : stripInjection F ext skill .prepend = F := replaceMarker_clean hF
  have hFeq := fmSplit_eq hfm
  have hfmF : containsSub (startMarker ext skill Pos.prepend.toChars) fm = false := by
    rw [hFeq] at hF
    exact containsSub_false_left hF
  have hrestF : containsSub (startMarker ext skill Pos.prepend.toChars) rest = false := by
    rw [hFeq] at hF
    exact containsSub_false_right hF
  rw [applyInjection]
  simp only [hstrip, hfm]
  have hshape : fm ++ '\n' ::
      ((startMarker ext skill Pos.prepend.toChars ++
        '\n' :: (trimEnd B ++ '\n' :: endMarker ext skill Pos.prepend.toChars)) ++ '\n' :: rest) =
      fm ++ '\n' :: (startMarker ext skill Pos.prepend.toChars ++
        '\n' :: (trimEnd B ++ '\n' :: (endMarker ext skill Pos.prepend.toChars ++ '\n' :: rest))) := by
    simp
  rw [stripInjection, hshape, replaceMarker_block hSnl hEnl _ _ _ hfmF hB,
    replaceMarker_clean hrestF, hFeq]

theorem stripApply_prepend_nofm (F B ext skill : List Char)
    (hext : '\n' ∉ ext) (hskill : '\n' ∉ skill)
    (hF : containsSub (startMarker ext skill Pos.prepend.toChars) F = false)
    (hB : containsSub ('\n' :: endMarker ext skill Pos.prepend.toChars) (trimEnd B) = false)
    (hfm : fmSplit F = none) :
    stripInjection (applyInjection F B .prepend ext skill) ext skill .prepend =
      '\n' :: F := by
  have hSnl : '\n' ∉ startMarker ext skill Pos.prepend.toChars :=
    nl_not_mem_startMarker hext hskill (nl_not_mem_posChars _)
  have hEnl : '\n' ∉ endMarker ext skill Pos.prepend.toChars :=
    nl_not_mem_endMarker hext hskill (nl_not_mem_posChars _)
  have hstrip : stripInjection F ext skill .prepend = F := replaceMarker_clean hF
  have hconsF : containsSub (startMarker ext skill Pos.prepend.toChars) ('\n' :: F) = false :=
    containsSub_cons_not_mem hF hSnl
  rw [applyInjection]
  simp only [hstrip, hfm]
  have hshape : (startMarker ext skill Pos.prepend.toChars ++
        '\n' :: (trimEnd B ++ '\n' :: endMarker ext skill Pos.prepend.toChars)) ++
        '\n' :: '\n' :: F =
      startMarker ext skill Pos.prepend.toChars ++
        '\n' :: (trimEnd B ++ '\n' :: (endMarker ext skill Pos.prepend.toChars ++
          '\n' :: ('\n' :: F))) := by
    simp
  rw [stripInjection, hshape,
    replaceMarker_block_head (startMarker_ne_nil _ _ _) hSnl hEnl _ _ hB,
    replaceMarker_clean hconsF]

/-! ## Claims C1 and C2: the marker codec -/

set_option maxRecDepth 8000

/-- C1 (counterexample): applying the same injection twice with position
`prepend` to a file without a front-matter section does not reproduce the
once-applied text — the second application prepends one extra newline. -/
theorem c1_counterexample :
    applyInjection
      (applyInjection "hello".toList "world".toList .prepend "e".toList "s".toList)
      "world".toList .prepend "e".toList "s".toList ≠
    applyInjection "hello".toList "world".toList .prepend "e".toList "s".toList := by
  decide

/-- C1 (amended): `applyInjection` is idempotent for the `append` position,
and for the `prepend` position on a host file with a front-matter section,
provided the extension and skill names contain no newline, the host content
does not contain the start sentinel of the triple, and the trimmed
injection content does not contain a newline followed by the end sentinel
of the triple.  (For `prepend` on a file without front matter each
application prepends an additional newline, per the counterexample.) -/
theorem c1_applyInjection_idempotent (F B ext skill : List Char) (pos : Pos)
    (hext : '\n' ∉ ext) (hskill : '\n' ∉ skill)
    (hF : containsSub (startMarker ext skill pos.toChars) F = false)
    (hB : containsSub ('\n' :: endMarker ext skill pos.toChars) (trimEnd B) = false)
    (hfm : pos = Pos.prepend → (fmSplit F).isSome = true) :
    applyInjection (applyInjection F B pos ext skill) B pos ext skill =
      applyInjection F B pos ext skill := by
  cases pos with
  | append =>
    have hstripF : stripInjection F ext skill Pos.append = F := replaceMarker_clean hF
    have hstrip := stripApply_append F B ext skill hext hskill hF hB
    generalize hR1 : applyInjection F B Pos.append ext skill = R1 at hstrip ⊢
    rw [applyInjection, hstrip, trimEnd_snoc_ws (by decide), trimEnd_trimEnd, ← hR1,
      applyInjection, hstripF]
  | prepend =>
    obtain ⟨fr, hfmeq⟩ : ∃ fr, fmSplit F = some fr :=
      Option.isSome_iff_exists.mp (hfm rfl)
    obtain ⟨fm, rest⟩ := fr
    have hstripF : stripInjection F ext skill Pos.prepend = F := replaceMarker_clean hF
    have hstrip := stripApply_prepend_fm F B ext skill fm rest hext hskill hF hB hfmeq
    have hshape : applyInjection F B Pos.prepend ext skill =
        fm ++ '\n' :: ((startMarker ext skill Pos.prepend.toChars ++
          '\n' :: (trimEnd B ++ '\n' :: endMarker ext skill Pos.prepend.toChars)) ++
          '\n' :: rest) := by
      rw [applyInjection]
      simp only [hstripF, hfmeq]
    rw [hshape] at hstrip ⊢
    rw [applyInjection]
    simp only [hstrip, hfmeq]

/-- C1 (witness): the amended idempotency theorem applied at a concrete
input. -/
theorem c1_witness :
    ('\n' ∉ "e".toList) ∧ ('\n' ∉ "s".toList) ∧
    containsSub (startMarker "e".toList "s".toList Pos.append.toChars)
      "hi\n".toList = false ∧
    containsSub ('\n' :: endMarker "e".toList "s".toList Pos.append.toChars)
      (trimEnd "yo".toList) = false ∧
    applyInjection
      (applyInjection "hi\n".toList "yo".toList .append "e".toList "s".toList)
      "yo".toList .append "e".toList "s".toList =
      applyInjection "hi\n".toList "yo".toList .append "e".toList "s".toList :=
  ⟨by decide, by decide, by decide, by decide,
    c1_applyInjection_idempotent "hi\n".toList "yo".toList "e".toList "s".toList
      Pos.append (by decide) (by decide) (by decide) (by decide)
      (fun h => Pos.noConfusion h)⟩

/-- C2 (counterexample): stripping after applying does not restore the
host content exactly — for `append` on a file not ending in a newline the
round trip appends one: `strip(apply("hello")) = "hello\n"`. -/
theorem c2_counterexample :
    stripInjection
      (applyInjection "hello".toList "world".toList .append "e".toList "s".toList)
      "e".toList "s".toList .append ≠ "hello".toList := by
  decide

/-- C2 (amended): under the same sentinel-freedom hypotheses as C1,
stripping after applying restores the host content up to edge
normalization: exactly `F` for `prepend` with front matter,
`trimEnd F ++ "\n"` for `append` (exact iff `F` ends in exactly one
newline and no other trailing whitespace), and `"\n" ++ F` for `prepend`
without front matter. -/
theorem c2_strip_after_apply (F B ext skill : List Char) (pos : Pos)
    (hext : '\n' ∉ ext) (hskill : '\n' ∉ skill)
    (hF : containsSub (startMarker ext skill pos.toChars) F = false)
    (hB : containsSub ('\n' :: endMarker ext skill pos.toChars) (trimEnd B) = false) :
    stripInjection (applyInjection F B pos ext skill) ext skill pos =
      (match pos, fmSplit F with
        | Pos.append, _ => trimEnd F ++ ['\n']
        | Pos.prepend, some _ => F
        | Pos.prepend, none => '\n' :: F) := by
  cases pos with
  | append => exact stripApply_append F B ext skill hext hskill hF hB
  | prepend =>
    cases hfm : fmSplit F with
    | some pr =>
      obtain ⟨fm, rest⟩ := pr
      simp only [hfm]
      exact stripApply_prepend_fm F B ext skill fm rest hext hskill hF hB hfm
    | none =>
      simp only [hfm]
      exact stripApply_prepend_nofm F B ext skill hext hskill hF hB hfm

/-- C2 (witness): the amended round-trip theorem applied at a concrete
input whose host content ends in exactly one newline, where the round trip
is exact. -/
theorem c2_witness :
    ('\n' ∉ "e".toList) ∧ ('\n' ∉ "s".toList) ∧
    containsSub (startMarker "e".toList "s".toList Pos.append.toChars)
      "hi\n".toList = false ∧
    containsSub ('\n' :: endMarker "e".toList "s".toList Pos.append.toChars)
      (trimEnd "yo".toList) = false ∧
    stripInjection
      (applyInjection "hi\n".toList "yo".toList .append "e".toList "s".toList)
      "e".toList "s".toList .append = trimEnd "hi\n".toList ++ ['\n'] :=
  ⟨by decide, by decide, by decide, by decide,
    c2_strip_after_apply "hi\n".toList "yo".toList "e".toList "s".toList Pos.append
      (by decide) (by decide) (by decide) (by decide)⟩

/-! ## Association lists -/

theorem alookup_aset_self {α : Type} (l : List (String × α)) (k : String) (v : α) :
    alookup k (aset l k v) = some v := by
  induction l with
  | nil => simp [aset, alookup]
  | cons kv t ih =>
    obtain ⟨k2, v2⟩ := kv
    rw [aset]
    split
    · rw [alookup, if_pos rfl]
    · next h =>
      rw [alookup, if_neg h]
      exact ih

theorem alookup_aset_ne {α : Type} (l : List (String × α)) {k k2 : String} (v : α)
    (h : k ≠ k2) : alookup k2 (aset l k v) = alookup k2 l := by
  induction l with
  | nil => simp [aset, alookup, h]
  | cons kv t ih =>
    obtain ⟨k3, v3⟩ := kv
    rw [aset]
    split
    · next heq =>
      subst heq
      rw [alookup, alookup, if_neg h]
      by_cases h2 : k3 = k2
      · exact absurd h2 h
      · rw [if_neg h2]
    · rw [alookup, alookup]
      split
      · rfl
      · exact ih

theorem alookup_aremove_self {α : Type} (l : List (String × α)) (k : String) :
    alookup k (aremove l k) = none := by
  induction l with
  | nil => rfl
  | cons kv t ih =>
    obtain ⟨k2, v2⟩ := kv
    rw [aremove]
    split
    · exact ih
    · next h =>
      rw [alookup, if_neg h]
      exact ih

theorem alookup_aremove_ne {α : Type} (l : List (String × α)) {k k2 : String}
    (h : k ≠ k2) : alookup k2 (aremove l k) = alookup k2 l := by
  induction l with
  | nil => rfl
  | cons kv t ih =>
    obtain ⟨k3, v3⟩ := kv
    rw [aremove]
    split
    · next heq =>
      subst heq
      rw [alookup, if_neg h]
      exact ih
    · rw [alookup, alookup]
      split
      · rfl
      · exact ih

/-! ## Pointwise effects of the modelled installer operations -/

theorem foldl_aremove_lookup (names : List String) :
    ∀ (sk : List (String × SkillOrigin)) (n : String),
      alookup n (names.foldl (fun sk2 n2 => aremove sk2 n2) sk) =
        if n ∈ names then none else alookup n sk := by
  induction names with
  | nil => intro sk n; simp
  | cons m rest ih =>
    intro sk n
    rw [List.foldl_cons, ih]
    by_cases hn : n ∈ rest
    · simp [hn]
    · by_cases hm : m = n
      · subst hm
        simp [hn, alookup_aremove_self]
      · have hcons : ¬ n ∈ m :: rest := by
          intro hcon
          rcases List.mem_cons.mp hcon with h | h
          · exact hm h.symm
          · exact hn h
        simp only [if_neg hn, if_neg hcons]
        exact alookup_aremove_ne sk hm

theorem foldl_aset_lookup (names : List String) (v : SkillOrigin) :
    ∀ (sk : List (String × SkillOrigin)) (n : String),
      alookup n (names.foldl (fun sk2 n2 => aset sk2 n2 v) sk) =
        if n ∈ names then some v else alookup n sk := by
  induction names with
  | nil => intro sk n; simp
  | cons m rest ih =>
    intro sk n
    rw [List.foldl_cons, ih]
    by_cases hn : n ∈ rest
    · simp [hn]
    · by_cases hm : m = n
      · subst hm
        simp [hn, alookup_aset_self]
      · have hcons : ¬ n ∈ m :: rest := by
          intro hcon
          rcases List.mem_cons.mp hcon with h | h
          · exact hm h.symm
          · exact hn h
        simp only [if_neg hn, if_neg hcons]
        exact alookup_aset_ne sk v hm

theorem getSkill_removeExt (a : AgentState) (names : List String) (n : String) :
    getSkill (removeExtensionSkills a names).2 n =
      if n ∈ names then none else getSkill a n := by
  rw [removeExtensionSkills, getSkill, getSkill]
  exact foldl_aremove_lookup names a.skills n

theorem getSkill_installSkills (a : AgentState) (names : List String) (n : String) :
    getSkill (installSkills a names) n =
      if n ∈ names then some SkillOrigin.base else getSkill a n := by
  rw [installSkills, getSkill, getSkill]
  exact foldl_aset_lookup names SkillOrigin.base a.skills n

theorem removeExt_id (a : AgentState) (names : List String) :
    (removeExtensionSkills a names).2.id = a.id := rfl

theorem removeExt_files (a : AgentState) (names : List String) :
    (removeExtensionSkills a names).2.files = a.files := rfl

theorem installSkills_id (a : AgentState) (names : List String) :
    (installSkills a names).id = a.id := rfl

theorem installSkills_files (a : AgentState) (names : List String) :
    (installSkills a names).files = a.files := rfl

theorem installExtensionSkills_id (env : Env) (extName : String) :
    ∀ (paths : List String) (overrides : List (String × String)) (a : AgentState),
      (installExtensionSkills env extName a paths overrides).2.id = a.id := by
  intro paths
  induction paths with
  | nil => intro overrides a; rfl
  | cons p rest ih =>
    intro overrides a
    rw [installExtensionSkills]
    split
    · exact ih overrides _
    · exact ih overrides a

theorem installExtensionSkills_files (env : Env) (extName : String) :
    ∀ (paths : List String) (overrides : List (String × String)) (a : AgentState),
      (installExtensionSkills env extName a paths overrides).2.files = a.files := by
  intro paths
  induction paths with
  | nil => intro overrides a; rfl
  | cons p rest ih =>
    intro overrides a
    rw [installExtensionSkills]
    split
    · exact ih overrides _
    · exact ih overrides a

theorem installExtensionSkills_names (env : Env) (extName : String) :
    ∀ (paths : List String) (overrides : List (String × String)) (a : AgentState),
      (installExtensionSkills env extName a paths overrides).1 =
        (paths.filter (fun p => env.instOk a.id p)).map
          (fun p => (alookup p overrides).getD p) := by
  intro paths
  induction paths with
  | nil => intro overrides a; rfl
  | cons p rest ih =>
    intro overrides a
    by_cases hok : env.instOk a.id p = true
    · simp only [installExtensionSkills, hok, if_true, List.filter_cons, List.map_cons]
      rw [ih overrides]
    · simp only [installExtensionSkills, hok, if_false, List.filter_cons, Bool.false_eq_true]
      exact ih overrides a

/-! ## Shapes of the per-agent loops -/

theorem stripByNameAll_agents (x : String) :
    ∀ (ags : List AgentState), (stripByNameAll x ags).1 = ags.map (stripByName x) := by
  intro ags
  induction ags with
  | nil => rfl
  | cons a rest ih => rw [stripByNameAll, List.map_cons, ← ih]

theorem stripDirAll_agents (x : String) (ds : List Directive) :
    ∀ (ags : List AgentState),
      (stripDirAll x ds ags).1 = ags.map (fun a => stripDirectives x a ds) := by
  intro ags
  induction ags with
  | nil => rfl
  | cons a rest ih => rw [stripDirAll, List.map_cons, ← ih]

theorem removeSkillsAll_agents (names : List String) :
    ∀ (ags : List AgentState),
      (removeSkillsAll names ags).1 =
        ags.map (fun a => (removeExtensionSkills a names).2) := by
  intro ags
  induction ags with
  | nil => rfl
  | cons a rest ih => rw [removeSkillsAll, List.map_cons, ← ih]

theorem installBaseAll_agents (names : List String) :
    ∀ (ags : List AgentState),
      (installBaseAll names ags).1 = ags.map (fun a => installSkills a names) := by
  intro ags
  induction ags with
  | nil => rfl
  | cons a rest ih => rw [installBaseAll, List.map_cons, ← ih]

theorem installExtAll_agents (env : Env) (x : String) (paths : List String)
    (overrides : List (String × String)) :
    ∀ (ags : List AgentState),
      (installExtAll env x paths overrides ags).1 =
        ags.map (fun a => (installExtensionSkills env x a paths overrides).2) := by
  intro ags
  induction ags with
  | nil => rfl
  | cons a rest ih => rw [installExtAll, List.map_cons, ← ih]

theorem applyInjAll_agents (x : String) (stored : List (String × List Char))
    (ds : List Directive) :
    ∀ (ags : List AgentState),
      (applyInjAll x stored ds ags).1 =
        ags.map (fun a => (applyDirectives x stored a ds).1) := by
  intro ags
  induction ags with
  | nil => rfl
  | cons a rest ih => rw [applyInjAll, List.map_cons, ← ih]

theorem reapplyInjections_agents (storage : List (String × StoredExt))
    (recs : List ExtRecord) :
    ∀ (ags : List AgentState),
      (reapplyInjections storage recs ags).1 =
        ags.map (fun a => (applyExtsToAgent storage a recs).1) := by
  intro ags
  induction ags with
  | nil => rfl
  | cons a rest ih => rw [reapplyInjections, List.map_cons, ← ih]

/-! ## Skills and identity preservation of the file-only operations -/

theorem stripByName_id (x : String) (a : AgentState) : (stripByName x a).id = a.id := rfl

theorem stripByName_skills (x : String) (a : AgentState) :
    (stripByName x a).skills = a.skills := rfl

theorem stripDirectives_skills (x : String) :
    ∀ (ds : List Directive) (a : AgentState),
      (stripDirectives x a ds).skills = a.skills ∧ (stripDirectives x a ds).id = a.id := by
  intro ds
  induction ds with
  | nil => intro a; exact ⟨rfl, rfl⟩
  | cons d rest ih =>
    intro a
    rw [stripDirectives]
    split
    · exact ih a
    · split
      · exact ih a
      · exact ih _

theorem applyDirectives_skills (x : String) (stored : List (String × List Char)) :
    ∀ (ds : List Directive) (a : AgentState),
      (applyDirectives x stored a ds).1.skills = a.skills ∧
        (applyDirectives x stored a ds).1.id = a.id := by
  intro ds
  induction ds with
  | nil => intro a; exact ⟨rfl, rfl⟩
  | cons d rest ih =>
    intro a
    rw [applyDirectives]
    split
    · exact ih a
    · split
      · exact ih a
      · split
        · exact ih a
        · split
          · exact ih a
          · exact ih _

theorem applyExtsToAgent_skills (storage : List (String × StoredExt)) :
    ∀ (recs : List ExtRecord) (a : AgentState),
      (applyExtsToAgent storage a recs).1.skills = a.skills ∧
        (applyExtsToAgent storage a recs).1.id = a.id := by
  intro recs
  induction recs with
  | nil => intro a; exact ⟨rfl, rfl⟩
  | cons r rest ih =>
    intro a
    rw [applyExtsToAgent]
    split
    · exact ih a
    · split
      · exact ih a
      · next m _ =>
        obtain ⟨h1, h2⟩ := ih (applyDirectives m.name _ a m.injections).1
        obtain ⟨h3, h4⟩ := applyDirectives_skills m.name _ m.injections a
        exact ⟨h1.trans h3, h2.trans h4⟩

/-! ## The success tally of the replacement install phase -/

theorem alookup_of_mem_nodup {α : Type} :
    ∀ {l : List (String × α)} {p : String} {b : α},
      (l.map (fun pb => pb.1)).Nodup → (p, b) ∈ l → alookup p l = some b := by
  intro l
  induction l with
  | nil => intro p b _ hmem; exact absurd hmem (by simp)
  | cons kv t ih =>
    intro p b hnd hmem
    obtain ⟨k, v⟩ := kv
    rw [List.map_cons, List.nodup_cons] at hnd
    rcases List.mem_cons.mp hmem with h | h
    · rw [Prod.mk.injEq] at h
      rw [alookup, if_pos h.1.symm, h.2]
    · have hk : k ≠ p := by
        intro hkp
        exact hnd.1 (by
          subst hkp
          exact List.mem_map.mpr ⟨(k, b), h, rfl⟩)
      rw [alookup, if_neg hk]
      exact ih hnd.2 h

theorem count_filter_map_unique {b p : String} (ov : String → String)
    (f : String → Bool) :
    ∀ (ps : List String), ps.Nodup → p ∈ ps →
      (∀ q ∈ ps, (ov q = b ↔ q = p)) →
      ((ps.filter f).map ov).count b = if f p then 1 else 0 := by
  intro ps
  induction ps with
  | nil => intro _ hp _; exact absurd hp (by simp)
  | cons q rest ih =>
    intro hnd hp hiff
    rw [List.nodup_cons] at hnd
    by_cases hqp : q = p
    · subst hqp
      have hzero : ((rest.filter f).map ov).count b = 0 := by
        rw [List.count_eq_zero]
        intro hmem
        obtain ⟨q2, hq2, hq2b⟩ := List.mem_map.mp hmem
        have hq2rest := List.mem_of_mem_filter hq2
        have := (hiff q2 (List.mem_cons_of_mem _ hq2rest)).mp hq2b
        subst this
        exact hnd.1 hq2rest
      have hovq : ov q = b := (hiff q (List.mem_cons_self _ _)).mpr rfl
      rw [List.filter_cons]
      by_cases hf : f q = true
      · rw [if_pos hf, List.map_cons, List.count_cons, hzero, if_pos hf, hovq]
        simp
      · rw [if_neg hf, hzero, if_neg hf]
    · have hp2 : p ∈ rest := by
        rcases List.mem_cons.mp hp with h | h
        · exact absurd h.symm hqp
        · exact h
      have hovq : ov q ≠ b := by
        intro hq
        exact hqp ((hiff q (List.mem_cons_self _ _)).mp hq)
      have hrec := ih hnd.2 hp2 (fun q2 hq2 => hiff q2 (List.mem_cons_of_mem _ hq2))
      rw [List.filter_cons]
      by_cases hf : f q = true
      · rw [if_pos hf, List.map_cons, List.count_cons, hrec]
        have hbeq : (ov q == b) = false := beq_eq_false_iff_ne.mpr hovq
        rw [hbeq]
        simp
      · rw [if_neg hf, hrec]

theorem count_installExtAll (env : Env) (x : String)
    (entries : List (String × String)) {p b : String}
    (hkeys : (entries.map (fun pb => pb.1)).Nodup)
    (hvals : (entries.map (fun pb => pb.2)).Nodup)
    (hmem : (p, b) ∈ entries) :
    ∀ (ags : List AgentState),
      ((installExtAll env x (entries.map (fun pb => pb.1)) entries ags).2.1).count b =
        (ags.filter (fun a => env.instOk a.id p)).length := by
  have hiff : ∀ a0 : AgentState, ∀ q ∈ entries.map (fun pb => pb.1),
      ((alookup q entries).getD q = b ↔ q = p) := by
    intro a0 q hq
    constructor
    · intro hqb
      obtain ⟨pb2, hqv, hq1⟩ := List.mem_map.mp hq
      obtain ⟨q1, v⟩ := pb2
      simp only at hq1
      subst hq1
      rw [alookup_of_mem_nodup hkeys hqv, Option.getD_some] at hqb
      subst hqb
      have h2 := List.inj_on_of_nodup_map hvals hqv hmem rfl
      rw [Prod.mk.injEq] at h2
      exact h2.1
    · rintro rfl
      rw [alookup_of_mem_nodup hkeys hmem, Option.getD_some]
  intro ags
  induction ags with
  | nil => rfl
  | cons a rest ih =>
    rw [installExtAll]
    have hnames := installExtensionSkills_names env x (entries.map (fun pb => pb.1))
      entries a
    have hkeysnd : (entries.map (fun pb => pb.1)).Nodup := hkeys
    have hpmem : p ∈ entries.map (fun pb => pb.1) :=
      List.mem_map.mpr ⟨(p, b), hmem, rfl⟩
    have hcnt := count_filter_map_unique (fun q => (alookup q entries).getD q)
      (fun q => env.instOk a.id q) (entries.map (fun pb => pb.1)) hkeysnd hpmem
      (hiff a)
    rw [List.count_append, hnames, hcnt, ih, List.filter_cons]
    by_cases hok : env.instOk a.id p = true
    · rw [if_pos hok, if_pos hok, List.length_cons]
      omega
    · rw [if_neg hok, if_neg hok]
      omega

/-! ## The per-entry replacement processing -/

theorem removeSkillsAll_proj {b : String} (names : List String) (hb : b ∉ names) :
    ∀ (ags : List AgentState),
      ((removeSkillsAll names ags).1).map (fun a => (a.id, getSkill a b)) =
        ags.map (fun a => (a.id, getSkill a b)) := by
  intro ags
  rw [removeSkillsAll_agents, List.map_map]
  apply List.map_congr_left
  intro a _
  simp only [Function.comp_apply]
  rw [removeExt_id, getSkill_removeExt, if_neg hb]

theorem installBaseAll_proj {b : String} (names : List String) (hb : b ∉ names) :
    ∀ (ags : List AgentState),
      ((installBaseAll names ags).1).map (fun a => (a.id, getSkill a b)) =
        ags.map (fun a => (a.id, getSkill a b)) := by
  intro ags
  rw [installBaseAll_agents, List.map_map]
  apply List.map_congr_left
  intro a _
  simp only [Function.comp_apply]
  rw [installSkills_id, getSkill_installSkills, if_neg hb]

theorem removeSkillsAll_getSkill_mem {b : String} (names : List String)
    (hb : b ∈ names) (ags : List AgentState) :
    ∀ a2 ∈ (removeSkillsAll names ags).1, getSkill a2 b = none := by
  intro a2 ha2
  rw [removeSkillsAll_agents] at ha2
  obtain ⟨a, _, rfl⟩ := List.mem_map.mp ha2
  rw [getSkill_removeExt, if_pos hb]

theorem installBaseAll_getSkill_mem {b : String} (names : List String)
    (hb : b ∈ names) (ags : List AgentState) :
    ∀ a2 ∈ (installBaseAll names ags).1, getSkill a2 b = some SkillOrigin.base := by
  intro a2 ha2
  rw [installBaseAll_agents] at ha2
  obtain ⟨a, _, rfl⟩ := List.mem_map.mp ha2
  rw [getSkill_installSkills, if_pos hb]

theorem getSkill_of_proj_eq {l1 l2 : List AgentState} {b : String}
    (h : l1.map (fun a => (a.id, getSkill a b)) = l2.map (fun a => (a.id, getSkill a b)))
    {v : Option SkillOrigin}
    (h2 : ∀ a ∈ l2, getSkill a b = v) : ∀ a ∈ l1, getSkill a b = v := by
  intro a ha
  have hmm : (a.id, getSkill a b) ∈ l2.map (fun a => (a.id, getSkill a b)) := by
    rw [← h]
    exact List.mem_map.mpr ⟨a, ha, rfl⟩
  obtain ⟨a2, ha2, heq⟩ := List.mem_map.mp hmm
  rw [Prod.mk.injEq] at heq
  rw [← heq.2]
  exact h2 a2 ha2

theorem processEntries_rs (env : Env) (n : Nat) (ia : List String) :
    ∀ (entries : List (String × String)) (ags : List AgentState),
      (processEntries env n ia ags entries).2.1 =
        (entries.filter (fun pb => ia.count pb.2 == n)).map (fun pb => pb.2) := by
  intro entries
  induction entries with
  | nil => intro ags; rfl
  | cons pb rest ih =>
    intro ags
    obtain ⟨q, c⟩ := pb
    simp only [processEntries, List.filter_cons]
    by_cases h1 : ia.count c = n
    · rw [if_pos h1, if_pos (beq_iff_eq.mpr h1), List.map_cons, ih ags]
    · rw [if_neg h1, if_neg (fun hcon => h1 (beq_iff_eq.mp hcon))]
      by_cases h2 : 0 < ia.count c
      · rw [if_pos h2, ih]
      · rw [if_neg h2, ih ags]

theorem processEntries_preserve (env : Env) (n : Nat) (ia : List String) {b : String} :
    ∀ (entries : List (String × String)),
      b ∉ entries.map (fun pb => pb.2) → ∀ (ags : List AgentState),
      ((processEntries env n ia ags entries).1).map (fun a => (a.id, getSkill a b)) =
        ags.map (fun a => (a.id, getSkill a b)) := by
  intro entries
  induction entries with
  | nil => intro _ ags; rfl
  | cons pb rest ih =>
    intro hb ags
    obtain ⟨q, c⟩ := pb
    rw [List.map_cons] at hb
    have hbc : b ≠ c := fun h => hb (by simp [h])
    have hbrest : b ∉ rest.map (fun pb => pb.2) := fun h => hb (by simp [h])
    simp only [processEntries]
    by_cases h1 : ia.count c = n
    · rw [if_pos h1]
      exact ih hbrest ags
    · rw [if_neg h1]
      by_cases h2 : 0 < ia.count c
      · rw [if_pos h2]
        rw [ih hbrest]
        by_cases hav : c ∈ env.available
        · rw [if_pos hav]
          rw [installBaseAll_proj [c] (by simp [hbc]),
            removeSkillsAll_proj [c] (by simp [hbc])]
        · rw [if_neg hav]
          exact removeSkillsAll_proj [c] (by simp [hbc]) ags
      · rw [if_neg h2]
        exact ih hbrest ags

theorem processEntries_rollback (env : Env) (n : Nat) (ia : List String) {b : String} :
    ∀ (entries : List (String × String)),
      (entries.map (fun pb => pb.2)).Nodup →
      (∃ q, (q, b) ∈ entries) → ia.count b ≠ n → 0 < ia.count b →
      ∀ (ags : List AgentState),
        ∀ a2 ∈ (processEntries env n ia ags entries).1,
          getSkill a2 b = if b ∈ env.available then some SkillOrigin.base else none := by
  intro entries
  induction entries with
  | nil =>
    intro _ hq
    obtain ⟨q, hq⟩ := hq
    exact absurd hq (by simp)
  | cons pb rest ih =>
    intro hnd hq hcount hpos ags a2 ha2
    obtain ⟨q0, c⟩ := pb
    rw [List.map_cons, List.nodup_cons] at hnd
    by_cases hbc : c = b
    · subst hbc
      have hval : ∀ a3 ∈ (if c ∈ env.available then
            installBaseAll [c] (removeSkillsAll [c] ags).1
          else ((removeSkillsAll [c] ags).1, [])).1,
          getSkill a3 c = if c ∈ env.available then some SkillOrigin.base else none := by
        by_cases hav : c ∈ env.available
        · rw [if_pos hav, if_pos hav]
          exact installBaseAll_getSkill_mem [c] (by simp) _
        · rw [if_neg hav, if_neg hav]
          exact removeSkillsAll_getSkill_mem [c] (by simp) ags
      revert ha2
      simp only [processEntries, if_neg hcount, if_pos hpos]
      intro ha2
      exact getSkill_of_proj_eq (processEntries_preserve env n ia rest hnd.1 _)
        hval a2 ha2
    · obtain ⟨q, hqmem⟩ := hq
      have hqrest : (q, b) ∈ rest := by
        rcases List.mem_cons.mp hqmem with h | h
        · rw [Prod.mk.injEq] at h
          exact absurd h.2.symm hbc
        · exact h
      revert ha2
      simp only [processEntries]
      by_cases h1 : ia.count c = n
      · rw [if_pos h1]
        intro ha2
        exact ih hnd.2 ⟨q, hqrest⟩ hcount hpos ags a2 ha2
      · rw [if_neg h1]
        by_cases h2 : 0 < ia.count c
        · rw [if_pos h2]
          intro ha2
          exact ih hnd.2 ⟨q, hqrest⟩ hcount hpos _ a2 ha2
        · rw [if_neg h2]
          intro ha2
          exact ih hnd.2 ⟨q, hqrest⟩ hcount hpos ags a2 ha2

theorem updateRecord_find (r : ExtRecord) :
    ∀ (exts : List ExtRecord),
      (updateRecord exts r).find? (fun r2 => r2.name == r.name) = some r := by
  intro exts
  induction exts with
  | nil =>
    rw [updateRecord, List.find?_cons_of_pos]
    exact beq_self_eq_true r.name
  | cons r2 rest ih =>
    rw [updateRecord]
    split
    · rw [List.find?_cons_of_pos]
      exact beq_self_eq_true r.name
    · next hne =>
      rw [List.find?_cons_of_neg]
      · exact ih
      · exact fun hcon => hne (beq_iff_eq.mp hcon)

theorem conflictCheck_isSome {m : Manifest} {exts : List ExtRecord}
    (h : ∃ pb ∈ m.replaces.getD [], ∃ o ∈ exts,
      o.name ≠ m.name ∧ pb.2 ∈ o.replacedSkills) :
    ∃ b, conflictCheck m exts = some b := by
  obtain ⟨pb, hpb, o, ho, hne, hb⟩ := h
  cases hrep : m.replaces with
  | none =>
    rw [hrep] at hpb
    exact absurd hpb (by simp)
  | some entries =>
    rw [hrep] at hpb
    simp only [Option.getD_some] at hpb
    rw [conflictCheck, hrep]
    have hex : ∃ pb2 ∈ entries, (exts.any (fun o2 =>
        o2.name != m.name && o2.replacedSkills.contains pb2.2)) = true := by
      refine ⟨pb, hpb, ?_⟩
      rw [List.any_eq_true]
      exact ⟨o, ho, by
        rw [Bool.and_eq_true, bne_iff_ne]
        exact ⟨hne, by simpa using hb⟩⟩
    cases hfind : entries.find? (fun pb2 => exts.any (fun o2 =>
        o2.name != m.name && o2.replacedSkills.contains pb2.2)) with
    | none =>
      obtain ⟨pb2, hpb2, hp⟩ := hex
      exact absurd hp (List.find?_eq_none.mp hfind pb2 hpb2)
    | some pb2 =>
      refine ⟨pb2.2, ?_⟩
      simp only [hfind]

/-- C3: when some declared base skill is already owned by a record with a
different name, `extensionAddCommand` fails with a conflict error and leaves
the world (store, agent trees, extension storage) unchanged, emitting no
side effect. -/
theorem c3_conflict_aborts_clean (env : Env) (w : World) (resolved : Resolved)
    (source : String)
    (h : ∃ pb ∈ resolved.manifest.replaces.getD [], ∃ o ∈ w.extensions,
      o.name ≠ resolved.manifest.name ∧ pb.2 ∈ o.replacedSkills) :
    ((extensionAddCommand env w resolved source).err).isSome = true ∧
    (extensionAddCommand env w resolved source).world = w ∧
    (extensionAddCommand env w resolved source).events = [] := by
  obtain ⟨b, hcc⟩ := conflictCheck_isSome h
  refine ⟨?_, ?_, ?_⟩ <;> simp [extensionAddCommand, hcc]

/-- C3 (witness): the conflict theorem at a concrete world where another
extension already owns the declared base skill. -/
theorem c3_witness :
    (∃ pb ∈ exResolvedRepl.manifest.replaces.getD [], ∃ o ∈ exWorldOther.extensions,
      o.name ≠ exResolvedRepl.manifest.name ∧ pb.2 ∈ o.replacedSkills) ∧
    ((extensionAddCommand exEnvTrue exWorldOther exResolvedRepl "src1").err).isSome = true ∧
    (extensionAddCommand exEnvTrue exWorldOther exResolvedRepl "src1").world =
      exWorldOther := by
  have hh : ∃ pb ∈ exResolvedRepl.manifest.replaces.getD [],
      ∃ o ∈ exWorldOther.extensions,
      o.name ≠ exResolvedRepl.manifest.name ∧ pb.2 ∈ o.replacedSkills :=
    ⟨("skills/my-commit", "aif-commit"), by decide, exRecOther, by decide, by decide,
      by decide⟩
  exact ⟨hh, (c3_conflict_aborts_clean exEnvTrue exWorldOther exResolvedRepl "src1" hh).1,
    (c3_conflict_aborts_clean exEnvTrue exWorldOther exResolvedRepl "src1" hh).2.1⟩

/-- C10: with an empty configured agent list and no ownership conflict,
`extensionAddCommand` succeeds and the committed record lists every base
skill declared in the manifest's replaces map as owned, although the
replacement was installed for no agent (the per-entry success tally 0
equals the agent count 0). -/
theorem c10_empty_agents_all_recorded (env : Env) (w : World) (resolved : Resolved)
    (source : String) (hagents : w.agents = [])
    (hconf : conflictCheck resolved.manifest w.extensions = none) :
    (extensionAddCommand env w resolved source).err = none ∧
    ∃ r, ((extensionAddCommand env w resolved source).world.extensions).find?
        (fun r2 => r2.name == resolved.manifest.name) = some r ∧
      r.replacedSkills =
        (resolved.manifest.replaces.getD []).map (fun pb => pb.2) := by
  have hext : (extensionAddCommand env w resolved source).world.extensions =
      updateRecord w.extensions
        { name := resolved.manifest.name, source := source,
          version := resolved.manifest.version,
          replacedSkills := (resolved.manifest.replaces.getD []).map (fun pb => pb.2) } := by
    by_cases hent : resolved.manifest.replaces.getD [] = []
    · simp [extensionAddCommand, hconf, hagents, hent]
    · simp [extensionAddCommand, hconf, hagents, hent, processEntries_rs,
        stripByNameAll, removeSkillsAll, installBaseAll, installExtAll]
  refine ⟨by simp [extensionAddCommand, hconf], ?_⟩
  refine ⟨ExtRecord.mk resolved.manifest.name source resolved.manifest.version
      ((resolved.manifest.replaces.getD []).map (fun pb => pb.2)), ?_, rfl⟩
  rw [hext]
  exact updateRecord_find (ExtRecord.mk resolved.manifest.name source
    resolved.manifest.version
    ((resolved.manifest.replaces.getD []).map (fun pb => pb.2))) w.extensions

/-- C10 (witness): the empty-agents recording theorem at a concrete world
with no agents and one declared replacement. -/
theorem c10_witness :
    exWorldEmpty.agents = [] ∧
    conflictCheck exResolvedRepl.manifest exWorldEmpty.extensions = none ∧
    ((extensionAddCommand exEnvTrue exWorldEmpty exResolvedRepl "src1").err = none ∧
      ∃ r, ((extensionAddCommand exEnvTrue exWorldEmpty exResolvedRepl
            "src1").world.extensions).find?
          (fun r2 => r2.name == exResolvedRepl.manifest.name) = some r ∧
        r.replacedSkills =
          (exResolvedRepl.manifest.replaces.getD []).map (fun pb => pb.2)) :=
  ⟨rfl, rfl, c10_empty_agents_all_recorded exEnvTrue exWorldEmpty exResolvedRepl "src1"
    rfl rfl⟩

theorem installExtensionSkills_getSkill (env : Env) (x : String) {b : String} :
    ∀ (paths : List String) (overrides : List (String × String)) (a : AgentState),
      (∀ p ∈ paths, (alookup p overrides).getD p ≠ b) →
      getSkill (installExtensionSkills env x a paths overrides).2 b = getSkill a b := by
  intro paths
  induction paths with
  | nil => intro overrides a _; rfl
  | cons p rest ih =>
    intro overrides a h
    rw [installExtensionSkills]
    split
    · rw [ih overrides _ (fun q hq => h q (List.mem_cons_of_mem _ hq))]
      exact alookup_aset_ne a.skills (SkillOrigin.ext x)
        (h p (List.mem_cons_self _ _))
    · exact ih overrides a (fun q hq => h q (List.mem_cons_of_mem _ hq))

theorem installExtAll_proj {b : String} (env : Env) (x : String)
    (paths : List String) (overrides : List (String × String))
    (h : ∀ p ∈ paths, (alookup p overrides).getD p ≠ b) :
    ∀ (ags : List AgentState),
      ((installExtAll env x paths overrides ags).1).map (fun a => (a.id, getSkill a b)) =
        ags.map (fun a => (a.id, getSkill a b)) := by
  intro ags
  rw [installExtAll_agents, List.map_map]
  apply List.map_congr_left
  intro a _
  simp only [Function.comp_apply]
  rw [installExtensionSkills_id, installExtensionSkills_getSkill env x paths overrides a h]

theorem applyInjAll_proj {b : String} (x : String) (stored : List (String × List Char))
    (ds : List Directive) :
    ∀ (ags : List AgentState),
      ((applyInjAll x stored ds ags).1).map (fun a => (a.id, getSkill a b)) =
        ags.map (fun a => (a.id, getSkill a b)) := by
  intro ags
  rw [applyInjAll_agents, List.map_map]
  apply List.map_congr_left
  intro a _
  simp only [Function.comp_apply]
  obtain ⟨h1, h2⟩ := applyDirectives_skills x stored ds a
  rw [h2, getSkill, getSkill, h1]

theorem updateRecord_find_nm (r : ExtRecord) (exts : List ExtRecord) (nm : String)
    (h : r.name = nm) :
    (updateRecord exts r).find? (fun r2 => r2.name == nm) = some r := by
  rw [← h]
  exact updateRecord_find r exts

/-- C4: on a fresh install (no record with the manifest's name) with no
ownership conflict and well-formed replaces entries, a declared replacement
whose per-agent install succeeded on some but not all configured agents is
rolled back everywhere — every agent ends with the base skill when it is in
the catalog and without the behavior otherwise — the id is excluded from the
committed record, the operation still succeeds, and the record lists exactly
the ids whose install succeeded on every agent. -/
theorem c4_partial_agent_rollback (env : Env) (w : World) (resolved : Resolved)
    (source : String) (b : String)
    (hre : w.extensions.any (fun r => r.name == resolved.manifest.name) = false)
    (hconf : conflictCheck resolved.manifest w.extensions = none)
    (hnd : ((resolved.manifest.replaces.getD []).map (fun pb => pb.2)).Nodup)
    (hmem : ∃ q, (q, b) ∈ resolved.manifest.replaces.getD [])
    (hcustom : b ∉ resolved.manifest.skills)
    (hsome : 0 < ((installExtAll env resolved.manifest.name
        ((resolved.manifest.replaces.getD []).map (fun pb => pb.1))
        (resolved.manifest.replaces.getD []) w.agents).2.1).count b)
    (hnotall : ((installExtAll env resolved.manifest.name
        ((resolved.manifest.replaces.getD []).map (fun pb => pb.1))
        (resolved.manifest.replaces.getD []) w.agents).2.1).count b ≠
        w.agents.length) :
    (extensionAddCommand env w resolved source).err = none ∧
    (∀ a ∈ (extensionAddCommand env w resolved source).world.agents,
      getSkill a b = if b ∈ env.available then some SkillOrigin.base else none) ∧
    ∃ r, ((extensionAddCommand env w resolved source).world.extensions).find?
        (fun r2 => r2.name == resolved.manifest.name) = some r ∧
      b ∉ r.replacedSkills ∧
      r.replacedSkills = ((resolved.manifest.replaces.getD []).filter
        (fun pb => ((installExtAll env resolved.manifest.name
          ((resolved.manifest.replaces.getD []).map (fun pb2 => pb2.1))
          (resolved.manifest.replaces.getD []) w.agents).2.1).count pb.2 ==
          w.agents.length)).map (fun pb => pb.2) := by
  have hent : resolved.manifest.replaces.getD [] ≠ [] := by
    obtain ⟨q, hq⟩ := hmem
    intro hcon
    rw [hcon] at hq
    exact absurd hq (by simp)
  refine ⟨by simp [extensionAddCommand, hconf], ?_, ?_⟩
  · simp only [extensionAddCommand, hconf, hre, hent, Bool.false_eq_true, if_false,
      ite_false]
    by_cases hcus : resolved.manifest.skills.filter (fun sk =>
        !(((resolved.manifest.replaces.getD []).map (fun pb => pb.1)).contains sk)) = [] <;>
      simp only [hcus, if_true, if_false, ite_true, ite_false]
    · exact getSkill_of_proj_eq (applyInjAll_proj _ _ _ _)
        (processEntries_rollback env _ _ _ hnd hmem hnotall hsome _)
    · have hcond : ∀ p ∈ resolved.manifest.skills.filter (fun sk =>
          !(((resolved.manifest.replaces.getD []).map (fun pb => pb.1)).contains sk)),
          (alookup p ([] : List (String × String))).getD p ≠ b := by
        intro p hp hpb
        simp only [alookup, Option.getD_none] at hpb
        exact hcustom (hpb ▸ List.mem_of_mem_filter hp)
      exact getSkill_of_proj_eq (applyInjAll_proj _ _ _ _)
        (getSkill_of_proj_eq (installExtAll_proj env _ _ _ hcond _)
          (processEntries_rollback env _ _ _ hnd hmem hnotall hsome _))
  · simp only [extensionAddCommand, hconf, hre, hent, Bool.false_eq_true, if_false,
      ite_false]
    have hfind := updateRecord_find_nm (ExtRecord.mk resolved.manifest.name source
        resolved.manifest.version
        ((processEntries env w.agents.length
          ((installExtAll env resolved.manifest.name
            ((resolved.manifest.replaces.getD []).map (fun pb => pb.1))
            (resolved.manifest.replaces.getD []) w.agents).2.1)
          ((installExtAll env resolved.manifest.name
            ((resolved.manifest.replaces.getD []).map (fun pb => pb.1))
            (resolved.manifest.replaces.getD []) w.agents).1)
          (resolved.manifest.replaces.getD [])).2.1))
      w.extensions resolved.manifest.name rfl
    refine ⟨_, hfind, ?_, ?_⟩
    · simp only [processEntries_rs]
      intro hmem2
      obtain ⟨pb, hpb, hpb2⟩ := List.mem_map.mp hmem2
      have hcnt := List.of_mem_filter hpb
      rw [hpb2] at hcnt
      exact hnotall (by simpa using hcnt)
    · simp only [processEntries_rs]

/-- C4 (witness): the rollback theorem at a world with two agents where the
replacement install succeeds on agent `a` only. -/
theorem c4_witness :
    (0 < ((installExtAll exEnvPartial exResolvedRepl.manifest.name
        ((exResolvedRepl.manifest.replaces.getD []).map (fun pb => pb.1))
        (exResolvedRepl.manifest.replaces.getD []) exWorldAB.agents).2.1).count
        "aif-commit" ∧
      ((installExtAll exEnvPartial exResolvedRepl.manifest.name
        ((exResolvedRepl.manifest.replaces.getD []).map (fun pb => pb.1))
        (exResolvedRepl.manifest.replaces.getD []) exWorldAB.agents).2.1).count
        "aif-commit" ≠ exWorldAB.agents.length) ∧
    (∀ a ∈ (extensionAddCommand exEnvPartial exWorldAB exResolvedRepl
        "src1").world.agents,
      getSkill a "aif-commit" =
        if "aif-commit" ∈ exEnvPartial.available then some SkillOrigin.base else none) ∧
    ∃ r, ((extensionAddCommand exEnvPartial exWorldAB exResolvedRepl
        "src1").world.extensions).find?
        (fun r2 => r2.name == exResolvedRepl.manifest.name) = some r ∧
      "aif-commit" ∉ r.replacedSkills :=
  ⟨⟨by decide, by decide⟩,
    (c4_partial_agent_rollback exEnvPartial exWorldAB exResolvedRepl "src1" "aif-commit"
      (by decide) (by decide) (by decide) ⟨"skills/my-commit", by decide⟩ (by decide)
      (by decide) (by decide)).2.1,
    (c4_partial_agent_rollback exEnvPartial exWorldAB exResolvedRepl "src1" "aif-commit"
      (by decide) (by decide) (by decide) ⟨"skills/my-commit", by decide⟩ (by decide)
      (by decide) (by decide)).2.2.elim (fun r hr => ⟨r, hr.1, hr.2.1⟩)⟩

theorem removeSkillsAll_getSkill_none {b : String} (names : List String)
    (ags : List AgentState) (h : ∀ a ∈ ags, getSkill a b = none) :
    ∀ a2 ∈ (removeSkillsAll names ags).1, getSkill a2 b = none := by
  intro a2 ha2
  rw [removeSkillsAll_agents] at ha2
  obtain ⟨a, ha, rfl⟩ := List.mem_map.mp ha2
  rw [getSkill_removeExt]
  by_cases hb : b ∈ names
  · rw [if_pos hb]
  · rw [if_neg hb]
    exact h a ha

theorem mem_foldl_append_replaced (s : String) :
    ∀ (rs : List ExtRecord) (acc : List String),
      s ∈ rs.foldl (fun acc2 r => acc2 ++ r.replacedSkills) acc ↔
        s ∈ acc ∨ ∃ r ∈ rs, s ∈ r.replacedSkills := by
  intro rs
  induction rs with
  | nil => intro acc; simp [List.foldl]
  | cons r rest ih =>
    intro acc
    rw [List.foldl_cons, ih (acc ++ r.replacedSkills)]
    constructor
    · rintro (h | ⟨r2, hr2, hs⟩)
      · rcases List.mem_append.mp h with h | h
        · exact Or.inl h
        · exact Or.inr ⟨r, List.mem_cons_self _ _, h⟩
      · exact Or.inr ⟨r2, List.mem_cons_of_mem _ hr2, hs⟩
    · rintro (h | ⟨r2, hr2, hs⟩)
      · exact Or.inl (List.mem_append.mpr (Or.inl h))
      · rcases List.mem_cons.mp hr2 with h | h
        · subst h
          exact Or.inl (List.mem_append.mpr (Or.inr hs))
        · exact Or.inr ⟨r2, h, hs⟩

/-- C8: removing extension X reinstalls a base skill s recorded in X's
replacedSkills on every configured agent exactly when s is in the available
base catalog and no remaining record still owns it; otherwise every agent
ends without the behavior. -/
theorem c8_remove_restores_iff (env : Env) (w : World) (name s : String)
    (extRecord : ExtRecord) (others : List ExtRecord)
    (hfind : findRemove w.extensions name = some (extRecord, others))
    (hs : s ∈ extRecord.replacedSkills) :
    (extensionRemoveCommand env w name).err = none ∧
    (extensionRemoveCommand env w name).world.extensions = others ∧
    ∀ a ∈ (extensionRemoveCommand env w name).world.agents,
      getSkill a s =
        if s ∈ env.available ∧ ∀ r ∈ others, s ∉ r.replacedSkills
        then some SkillOrigin.base else none := by
  refine ⟨by simp [extensionRemoveCommand, hfind], by simp [extensionRemoveCommand, hfind], ?_⟩
  simp only [extensionRemoveCommand, hfind]
  have hiff : ∀ (pre : List AgentState),
      s ∈ extRecord.replacedSkills.filter (fun sk =>
        env.available.contains sk &&
          !((others.foldl (fun acc r => acc ++ r.replacedSkills) []).contains sk)) ↔
      (s ∈ env.available ∧ ∀ r ∈ others, s ∉ r.replacedSkills) := by
    intro _
    rw [List.mem_filter]
    constructor
    · rintro ⟨_, hp⟩
      rw [Bool.and_eq_true, Bool.not_eq_true'] at hp
      refine ⟨by simpa using hp.1, ?_⟩
      intro r hr hsr
      have : s ∈ others.foldl (fun acc r => acc ++ r.replacedSkills) [] :=
        (mem_foldl_append_replaced s others []).mpr (Or.inr ⟨r, hr, hsr⟩)
      have hcon : ((others.foldl (fun acc r => acc ++ r.replacedSkills) []).contains s)
          = true := by simpa using this
      rw [hcon] at hp
      exact absurd hp.2 (by simp)
    · rintro ⟨hav, hnone⟩
      refine ⟨hs, ?_⟩
      rw [Bool.and_eq_true, Bool.not_eq_true']
      refine ⟨by simpa using hav, ?_⟩
      by_cases hc : s ∈ others.foldl (fun acc r => acc ++ r.replacedSkills) []
      · rcases (mem_foldl_append_replaced s others []).mp hc with h | ⟨r, hr, hsr⟩
        · exact absurd h (by simp)
        · exact absurd hsr (hnone r hr)
      · simpa using hc
  have hnone : ∀ a ∈ (removeSkillsAll
      (match (alookup name w.storage).bind (fun st => st.manifest) with
        | some m => m.skills.filter (fun sk =>
            !(((m.replaces.getD []).map (fun pb => pb.1)).contains sk))
        | none => [])
      (removeSkillsAll extRecord.replacedSkills
        (match (alookup name w.storage).bind (fun st => st.manifest) with
          | some m => stripDirAll name m.injections w.agents
          | none => stripByNameAll name w.agents).1).1).1,
      getSkill a s = none :=
    removeSkillsAll_getSkill_none _ _
      (removeSkillsAll_getSkill_mem extRecord.replacedSkills hs _)
  by_cases hres : s ∈ extRecord.replacedSkills.filter (fun sk =>
      env.available.contains sk &&
        !((others.foldl (fun acc r => acc ++ r.replacedSkills) []).contains sk))
  · rw [if_pos ((hiff []).mp hres)]
    exact installBaseAll_getSkill_mem _ hres _
  · rw [if_neg (fun hc => hres ((hiff []).mpr hc))]
    exact getSkill_of_proj_eq (installBaseAll_proj _ hres _) hnone

/-- C8 (witness): removing `E1`, sole owner of the catalogued base
`aif-commit`, restores the base behavior on the only agent. -/
theorem c8_witness :
    findRemove exWorldCommit.extensions "E1" = some (exRecCommit, []) ∧
    "aif-commit" ∈ exRecCommit.replacedSkills ∧
    ((extensionRemoveCommand exEnvTrue exWorldCommit "E1").err = none ∧
      (extensionRemoveCommand exEnvTrue exWorldCommit "E1").world.extensions = [] ∧
      ∀ a ∈ (extensionRemoveCommand exEnvTrue exWorldCommit "E1").world.agents,
        getSkill a "aif-commit" =
          if "aif-commit" ∈ exEnvTrue.available ∧
              ∀ r ∈ ([] : List ExtRecord), "aif-commit" ∉ r.replacedSkills
          then some SkillOrigin.base else none) :=
  ⟨rfl, by decide,
    c8_remove_restores_iff exEnvTrue exWorldCommit "E1" "aif-commit" exRecCommit []
      rfl (by decide)⟩

theorem applyDirectives_events_injected (x : String)
    (stored : List (String × List Char)) :
    ∀ (ds : List Directive) (a : AgentState),
      ((applyDirectives x stored a ds).2).all Event.isInjected = true := by
  intro ds
  induction ds with
  | nil => intro a; rfl
  | cons d rest ih =>
    intro a
    rw [applyDirectives]
    split
    · exact ih a
    · split
      · exact ih a
      · split
        · exact ih a
        · split
          · exact ih a
          · simp only [List.all_cons, Bool.and_eq_true]
            exact ⟨rfl, ih _⟩

theorem applyInjAll_events_injected (x : String) (stored : List (String × List Char))
    (ds : List Directive) :
    ∀ (ags : List AgentState),
      ((applyInjAll x stored ds ags).2).all Event.isInjected = true := by
  intro ags
  induction ags with
  | nil => rfl
  | cons a rest ih =>
    rw [applyInjAll]
    simp only [List.all_append, Bool.and_eq_true]
    exact ⟨applyDirectives_events_injected x stored ds a, ih⟩

theorem exists_save_split (p1 p2 p3 p4 tail : List Event) (x : List ExtRecord)
    (htail : tail.all Event.isInjected = true) :
    ∃ pre post, p1 ++ p2 ++ p3 ++ p4 ++ [Event.saveStore x] ++ tail =
      pre ++ Event.saveStore x :: post ∧ post.all Event.isInjected = true :=
  ⟨p1 ++ p2 ++ p3 ++ p4, tail, by simp [List.append_assoc], htail⟩

theorem exists_save_last (p1 p2 p3 p4 : List Event) (x : List ExtRecord) :
    ∃ l, p1 ++ p2 ++ p3 ++ p4 ++ [Event.saveStore x] =
      l ++ [Event.saveStore x] :=
  ⟨p1 ++ p2 ++ p3 ++ p4, rfl⟩

theorem exists_save_last2 (p1 p2 p3 p4 : List Event) (a : Event) (x : List ExtRecord) :
    ∃ l, p1 ++ p2 ++ p3 ++ p4 ++ [a, Event.saveStore x] =
      l ++ [Event.saveStore x] :=
  ⟨p1 ++ p2 ++ p3 ++ p4 ++ [a], by simp [List.append_assoc]⟩

/-- C6 (counterexample): in `extensionAddCommand` the store save is NOT the
last per-agent side effect — an injection write, which is a per-agent file
mutation, is emitted after the `saveStore` event. -/
theorem c6_counterexample :
    ∃ pre post, (extensionAddCommand exEnvTrue exWorldA exResolvedInj "src1").events =
        pre ++ Event.saveStore (extensionAddCommand exEnvTrue exWorldA exResolvedInj
          "src1").world.extensions :: post ∧
      ∃ e ∈ post, e.isAgentEffect = true :=
  ⟨[Event.storageCommit "E1"], [Event.injected "a" "aif-implement"], by decide,
    Event.injected "a" "aif-implement", by decide, rfl⟩

/-- C6 (amended): update and remove persist the store only after every
per-agent side effect (the save is the final store event, after all agent
events); install persists the store after the skill install/rollback phases
but BEFORE applying injection directives: every event after the save is an
injection write. -/
theorem c6_save_ordering (env : Env) (w : World) (resolved : Resolved) (source : String)
    (name : String) (extRecord : ExtRecord) (others : List ExtRecord)
    (hconf : conflictCheck resolved.manifest w.extensions = none)
    (hfind : findRemove w.extensions name = some (extRecord, others)) :
    (∃ pre post, (extensionAddCommand env w resolved source).events =
        pre ++ Event.saveStore (extensionAddCommand env w resolved
          source).world.extensions :: post ∧
        post.all Event.isInjected = true) ∧
    (∃ l, (updateCommand env w).events =
        l ++ [Event.saveStore (updateCommand env w).world.extensions]) ∧
    (∃ l, (extensionRemoveCommand env w name).events =
        l ++ [Event.saveStore (extensionRemoveCommand env w name).world.extensions]) := by
  refine ⟨?_, ?_, ?_⟩
  · simp only [extensionAddCommand, hconf]
    exact exists_save_split _ _ _ _ _ _ (applyInjAll_events_injected _ _ _ _)
  · simp only [updateCommand]
    exact exists_save_last _ _ _ _ _
  · simp only [extensionRemoveCommand, hfind]
    exact exists_save_last2 _ _ _ _ _ _

/-- C6 (witness): the save-ordering theorem at a concrete world where both
an install and a remove are possible. -/
theorem c6_witness :
    conflictCheck exResolvedInj.manifest exWorldCommit.extensions = none ∧
    findRemove exWorldCommit.extensions "E1" = some (exRecCommit, []) ∧
    ((∃ pre post,
        (extensionAddCommand exEnvTrue exWorldCommit exResolvedInj "src1").events =
          pre ++ Event.saveStore (extensionAddCommand exEnvTrue exWorldCommit
            exResolvedInj "src1").world.extensions :: post ∧
        post.all Event.isInjected = true) ∧
      (∃ l, (updateCommand exEnvTrue exWorldCommit).events =
        l ++ [Event.saveStore (updateCommand exEnvTrue exWorldCommit).world.extensions]) ∧
      (∃ l, (extensionRemoveCommand exEnvTrue exWorldCommit "E1").events =
        l ++ [Event.saveStore (extensionRemoveCommand exEnvTrue exWorldCommit
          "E1").world.extensions])) :=
  ⟨rfl, rfl, c6_save_ordering exEnvTrue exWorldCommit exResolvedInj "src1" "E1"
    exRecCommit [] rfl rfl⟩

theorem updateExts_exts (env : Env) (storage : List (String × StoredExt)) :
    ∀ (exts : List ExtRecord) (ags : List AgentState),
      (updateExts env storage ags exts).1 = exts.map (updateRecordOnly storage) := by
  intro exts
  induction exts with
  | nil => intro ags; rfl
  | cons ext rest ih =>
    intro ags
    rw [List.map_cons]
    by_cases hrs : ext.replacedSkills = []
    · simp only [updateExts, updateRecordOnly, hrs, ite_true, if_true]
      rw [ih]
    · cases hlook : ((alookup ext.name storage).bind (fun st => st.manifest)).bind
          (fun m => m.replaces) with
      | none =>
        simp only [updateExts, updateRecordOnly, hrs, ite_false, if_false, hlook]
        rw [ih]
      | some entries =>
        simp only [updateExts, updateRecordOnly, hrs, ite_false, if_false, hlook]
        rw [ih]

theorem updateExts_failed (env : Env) (storage : List (String × StoredExt)) :
    ∀ (exts : List ExtRecord) (ags : List AgentState),
      (updateExts env storage ags exts).2.1 = exts.flatMap (releasedOf storage) := by
  intro exts
  induction exts with
  | nil => intro ags; rfl
  | cons ext rest ih =>
    intro ags
    rw [List.flatMap_cons]
    by_cases hrs : ext.replacedSkills = []
    · simp only [updateExts, releasedOf, hrs, ite_true, if_true]
      rw [ih, List.nil_append]
    · cases hlook : ((alookup ext.name storage).bind (fun st => st.manifest)).bind
          (fun m => m.replaces) with
      | none =>
        simp only [updateExts, releasedOf, hrs, ite_false, if_false, hlook]
        rw [ih]
      | some entries =>
        simp only [updateExts, releasedOf, hrs, ite_false, if_false, hlook]
        rw [ih]

theorem reapplyInjections_proj {b : String} (storage : List (String × StoredExt))
    (recs : List ExtRecord) :
    ∀ (ags : List AgentState),
      ((reapplyInjections storage recs ags).1).map (fun a => (a.id, getSkill a b)) =
        ags.map (fun a => (a.id, getSkill a b)) := by
  intro ags
  rw [reapplyInjections_agents, List.map_map]
  apply List.map_congr_left
  intro a _
  simp only [Function.comp_apply]
  obtain ⟨h1, h2⟩ := applyExtsToAgent_skills storage recs a
  rw [h2, getSkill, getSkill, h1]

/-- C7 (counterexample): during update, a released id is reinstalled as a
base behavior even when it is NOT in the available base-skill catalog — the
restore filter of update omits the catalog check that remove performs. -/
theorem c7_counterexample :
    "ghost" ∉ exEnvTrue.available ∧
    Event.baseInstalled "a" "ghost" ∈ (updateCommand exEnvTrue exWorldGhost).events ∧
    ∀ a ∈ (updateCommand exEnvTrue exWorldGhost).world.agents,
      getSkill a "ghost" = some SkillOrigin.base := by decide

/-- C7 (amended): during update, an owned id `s` of a record is released
both when the record's durable manifest or its replaces section is
unreadable (every owned id) and when the manifest loads but no longer
declares `s` (that specific id); the persisted store is exactly the
per-record release transform, `s` is gone from its record, and whenever no
remaining record still owns `s` it is reinstalled as a base behavior on
every agent WITHOUT the catalog-membership check that the restoration
predicate of remove performs. -/
theorem c7_update_release_and_restore (env : Env) (w : World)
    (ext : ExtRecord) (s : String)
    (hmem : ext ∈ w.extensions)
    (hs : s ∈ ext.replacedSkills)
    (hbranch : ((alookup ext.name w.storage).bind (fun st => st.manifest)).bind
        (fun m => m.replaces) = none ∨
      ∃ entries, ((alookup ext.name w.storage).bind (fun st => st.manifest)).bind
        (fun m => m.replaces) = some entries ∧ s ∉ entries.map (fun pb => pb.2))
    (hguard : s ∉ (w.extensions.map (updateRecordOnly w.storage)).foldl
        (fun acc r => acc ++ r.replacedSkills) []) :
    (updateCommand env w).err = none ∧
    (updateCommand env w).world.extensions =
      w.extensions.map (updateRecordOnly w.storage) ∧
    s ∉ (updateRecordOnly w.storage ext).replacedSkills ∧
    ∀ a ∈ (updateCommand env w).world.agents,
      getSkill a s = some SkillOrigin.base := by
  have hne : ext.replacedSkills ≠ [] := by
    intro hcon
    rw [hcon] at hs
    exact absurd hs (by simp)
  have hrel : s ∈ releasedOf w.storage ext := by
    rw [releasedOf, if_neg hne]
    rcases hbranch with h | ⟨entries, h, hnotin⟩
    · simp only [h]
      exact hs
    · simp only [h]
      rw [List.mem_filter]
      refine ⟨hs, ?_⟩
      rw [Bool.not_eq_true']
      simpa using hnotin
  have hnotrec : s ∉ (updateRecordOnly w.storage ext).replacedSkills := by
    rw [updateRecordOnly, if_neg hne]
    rcases hbranch with h | ⟨entries, h, hnotin⟩
    · simp only [h]
      simp
    · simp only [h]
      intro hcon
      rw [List.mem_filter] at hcon
      exact hnotin (by simpa using hcon.2)
  refine ⟨by simp [updateCommand], ?_, hnotrec, ?_⟩
  · simp only [updateCommand]
    rw [updateExts_exts]
  · simp only [updateCommand]
    refine getSkill_of_proj_eq (reapplyInjections_proj _ _ _) ?_
    refine installBaseAll_getSkill_mem _ ?_ _
    rw [List.mem_filter]
    constructor
    · rw [updateExts_failed]
      exact List.mem_flatMap.mpr ⟨ext, hmem, hrel⟩
    · rw [Bool.not_eq_true']
      rw [updateExts_exts]
      simpa using hguard

/-- C7 (witness): the release theorem at a world where `E1`'s loadable
manifest has dropped its owned uncatalogued id `ghost` while a second
record `OTHER` still owns `aif-commit`, so the still-owned guard is
evaluated against a nonempty remaining ownership set. -/
theorem c7_witness :
    exRecGhost ∈ exWorldGhost2.extensions ∧
    "ghost" ∈ exRecGhost.replacedSkills ∧
    "ghost" ∉ exEnvTrue.available ∧
    ((alookup exRecGhost.name exWorldGhost2.storage).bind (fun st => st.manifest)).bind
      (fun m => m.replaces) = some [("skills/zzz", "zzz-skill")] ∧
    ((updateCommand exEnvTrue exWorldGhost2).err = none ∧
      (updateCommand exEnvTrue exWorldGhost2).world.extensions =
        exWorldGhost2.extensions.map (updateRecordOnly exWorldGhost2.storage) ∧
      "ghost" ∉ (updateRecordOnly exWorldGhost2.storage exRecGhost).replacedSkills ∧
      ∀ a ∈ (updateCommand exEnvTrue exWorldGhost2).world.agents,
        getSkill a "ghost" = some SkillOrigin.base) :=
  ⟨by decide, by decide, by decide, rfl,
    c7_update_release_and_restore exEnvTrue exWorldGhost2 exRecGhost "ghost"
      (by decide) (by decide)
      (Or.inr ⟨[("skills/zzz", "zzz-skill")], rfl, by decide⟩)
      (by decide)⟩

theorem forall_of_map_eq {α β : Type} (g : α → β) {l1 l2 : List α}
    (h : l1.map g = l2.map g) {v : β} (h2 : ∀ a ∈ l2, g a = v) :
    ∀ a ∈ l1, g a = v := by
  intro a ha
  have hm : g a ∈ l2.map g := by
    rw [← h]
    exact List.mem_map_of_mem g ha
  obtain ⟨a2, ha2, heq⟩ := List.mem_map.mp hm
  rw [← heq]
  exact h2 a2 ha2

theorem removeSkillsAll_getFile (names : List String) (f : String) :
    ∀ (ags : List AgentState),
      ((removeSkillsAll names ags).1).map (fun a => getFile a f) =
        ags.map (fun a => getFile a f) := by
  intro ags
  rw [removeSkillsAll_agents, List.map_map]
  apply List.map_congr_left
  intro a _
  simp only [Function.comp_apply]
  rw [getFile, getFile, removeExt_files]

theorem installBaseAll_getFile (names : List String) (f : String) :
    ∀ (ags : List AgentState),
      ((installBaseAll names ags).1).map (fun a => getFile a f) =
        ags.map (fun a => getFile a f) := by
  intro ags
  rw [installBaseAll_agents, List.map_map]
  apply List.map_congr_left
  intro a _
  simp only [Function.comp_apply]
  rw [getFile, getFile, installSkills_files]

theorem nl_not_mem_nameToken {x : List Char} (hx : '\n' ∉ x) :
    '\n' ∉ nameTokenChars x := by
  intro hmem
  rw [nameTokenChars] at hmem
  rcases List.mem_append.mp hmem with h | h
  · rcases List.mem_append.mp h with h2 | h2
    · exact absurd h2 (by decide)
    · exact hx h2
  · exact absurd h (by decide)

/-! ## The extension-wide marker scrubber on token-free text and on a block -/

theorem nl_not_mem_extToken {x : List Char} (hx : '\n' ∉ x) :
    '\n' ∉ extTokenChars x := by
  intro hmem
  rw [extTokenChars] at hmem
  rcases List.mem_append.mp hmem with h | h
  · rcases List.mem_append.mp h with h2 | h2
    · exact absurd h2 (by decide)
    · exact hx h2
  · exact absurd h (by decide)

theorem extToken_split (x : List Char) :
    extTokenChars x = "<!-- ".toList ++ nameTokenChars x := by
  have h : "<!-- aif-ext:".toList = "<!-- ".toList ++ "aif-ext:".toList := rfl
  rw [extTokenChars, nameTokenChars, h]
  simp [List.append_assoc]

theorem containsSub_extToken_false {x l : List Char}
    (h : containsSub (nameTokenChars x) l = false) :
    containsSub (extTokenChars x) l = false := by
  cases hc : containsSub (extTokenChars x) l with
  | false => rfl
  | true =>
    obtain ⟨u, v, rfl⟩ := (containsSub_iff _ _).mp hc
    have hmm : containsSub (nameTokenChars x)
        (u ++ (extTokenChars x ++ v)) = true :=
      (containsSub_iff _ _).mpr ⟨u ++ "<!-- ".toList, v, by
        rw [extToken_split]
        simp [List.append_assoc]⟩
    rw [h] at hmm
    exact absurd hmm (by simp)

theorem colon_not_mem_posChars (p : Pos) : ':' ∉ p.toChars := by
  cases p <;> decide

theorem posChars_ne_nil (p : Pos) : p.toChars ≠ [] := by
  cases p <;> decide

theorem splitAtColon_spec (r : List Char) :
    ∀ (seg : List Char), ':' ∉ seg →
      splitAtColon (seg ++ ':' :: r) = some (seg, r) := by
  intro seg
  induction seg with
  | nil =>
    intro _
    rw [List.nil_append, splitAtColon, if_pos rfl]
  | cons c rest ih =>
    intro h
    have hc : ¬(c = ':') := fun hcon => h (by simp [hcon])
    rw [List.cons_append, splitAtColon, if_neg hc,
      ih (fun hm => h (List.mem_cons_of_mem _ hm))]

theorem matchGenAt_marker (x seg1 seg2 kind r : List Char)
    (h1 : ':' ∉ seg1) (h1n : seg1 ≠ []) (h2 : ':' ∉ seg2) (h2n : seg2 ≠ []) :
    matchGenAt x kind
      (extTokenChars x ++ (seg1 ++ ':' :: (seg2 ++ ':' :: (kind ++ r)))) = some r := by
  rw [matchGenAt, if_pos (isPre_append _ _), List.drop_left]
  cases seg1 with
  | nil => exact absurd rfl h1n
  | cons c1 s1 =>
    simp only [splitAtColon_spec (seg2 ++ ':' :: (kind ++ r)) (c1 :: s1) h1]
    cases seg2 with
    | nil => exact absurd rfl h2n
    | cons c2 s2 =>
      simp only [splitAtColon_spec (kind ++ r) (c2 :: s2) h2]
      rw [if_pos (isPre_append kind r), List.drop_left]

theorem matchGenAt_none {x l : List Char} (kind : List Char)
    (h : isPre (extTokenChars x) l = false) : matchGenAt x kind l = none := by
  simp [matchGenAt, h]

theorem startMarker_shape (x skill pos r : List Char) :
    startMarker x skill pos ++ r =
      extTokenChars x ++ (skill ++ ':' :: (pos ++ ':' :: ("start -->".toList ++ r))) := by
  have h1 : ":start -->".toList = ':' :: "start -->".toList := rfl
  rw [startMarker, extTokenChars, h1]
  simp [List.append_assoc]

theorem endMarker_shape (x skill pos r : List Char) :
    endMarker x skill pos ++ r =
      extTokenChars x ++ (skill ++ ':' :: (pos ++ ':' :: ("end -->".toList ++ r))) := by
  have h1 : ":end -->".toList = ':' :: "end -->".toList := rfl
  rw [endMarker, extTokenChars, h1]
  simp [List.append_assoc]

theorem findGenClose_strip (x seg1 seg2 : List Char)
    (hTnl : '\n' ∉ extTokenChars x)
    (h1 : ':' ∉ seg1) (h1n : seg1 ≠ []) (h2 : ':' ∉ seg2) (h2n : seg2 ≠ []) :
    ∀ (m c : List Char), containsSub (extTokenChars x) m = false →
      findGenClose x (m ++ '\n' ::
        (extTokenChars x ++ (seg1 ++ ':' :: (seg2 ++ ':' ::
          ("end -->".toList ++ '\n' :: c))))) = some c := by
  intro m
  induction m with
  | nil =>
    intro c _
    rw [List.nil_append, findGenClose, if_pos rfl]
    simp only [matchGenAt_marker x seg1 seg2 ("end -->".toList) ('\n' :: c) h1 h1n h2 h2n]
    rw [dropNl, if_pos rfl]
  | cons ch m2 ih =>
    intro c hm
    rw [List.cons_append, findGenClose]
    by_cases hch : ch = '\n'
    · rw [if_pos hch]
      simp only [matchGenAt_none ("end -->".toList)
        (isPre_false_before_nl hTnl (containsSub_tail hm))]
      exact ih c (containsSub_tail hm)
    · rw [if_neg hch]
      exact ih c (containsSub_tail hm)

theorem matchGenCore_none {x l : List Char}
    (h : isPre (extTokenChars x) l = false) : matchGenCore x l = none := by
  simp only [matchGenCore, matchGenAt_none ("start -->".toList) h]

theorem matchGenCore_block (x skill pos m c : List Char)
    (hTnl : '\n' ∉ extTokenChars x)
    (hsk : ':' ∉ skill) (hskn : skill ≠ [])
    (hp : ':' ∉ pos) (hpn : pos ≠ [])
    (hm : containsSub (extTokenChars x) m = false) :
    matchGenCore x (startMarker x skill pos ++
      '\n' :: (m ++ '\n' :: (endMarker x skill pos ++ '\n' :: c))) = some c := by
  rw [startMarker_shape]
  rw [matchGenCore]
  simp only [matchGenAt_marker x skill pos ("start -->".toList)
    ('\n' :: (m ++ '\n' :: (endMarker x skill pos ++ '\n' :: c))) hsk hskn hp hpn]
  rw [endMarker_shape]
  exact findGenClose_strip x skill pos hTnl hsk hskn hp hpn m c hm

theorem matchGenMarker_block (x skill pos m c : List Char)
    (hTnl : '\n' ∉ extTokenChars x)
    (hsk : ':' ∉ skill) (hskn : skill ≠ [])
    (hp : ':' ∉ pos) (hpn : pos ≠ [])
    (hm : containsSub (extTokenChars x) m = false) :
    matchGenMarker x ('\n' :: (startMarker x skill pos ++
      '\n' :: (m ++ '\n' :: (endMarker x skill pos ++ '\n' :: c)))) = some c := by
  rw [matchGenMarker, if_pos rfl]
  simp only [matchGenCore_block x skill pos m c hTnl hsk hskn hp hpn hm]

theorem matchGenMarker_none_clean {x l : List Char}
    (h : containsSub (extTokenChars x) l = false) : matchGenMarker x l = none := by
  cases l with
  | nil => exact matchGenCore_none (not_isPre_of_not_containsSub h)
  | cons c rest =>
    rw [matchGenMarker]
    by_cases hc : c = '\n'
    · rw [if_pos hc,
        matchGenCore_none (not_isPre_of_not_containsSub (containsSub_tail h)),
        matchGenCore_none (not_isPre_of_not_containsSub h)]
    · rw [if_neg hc, matchGenCore_none (not_isPre_of_not_containsSub h)]

theorem matchGenMarker_none_before_nl {x : List Char}
    (hTnl : '\n' ∉ extTokenChars x) :
    ∀ (a r : List Char), a ≠ [] → containsSub (extTokenChars x) a = false →
      matchGenMarker x (a ++ '\n' :: r) = none := by
  intro a r hne ha
  cases a with
  | nil => exact absurd rfl hne
  | cons ch a2 =>
    rw [List.cons_append, matchGenMarker]
    by_cases hc : ch = '\n'
    · rw [if_pos hc,
        matchGenCore_none (isPre_false_before_nl hTnl (containsSub_tail ha))]
      have hsplit : (ch :: (a2 ++ '\n' :: r)) = (ch :: a2) ++ '\n' :: r := rfl
      rw [hsplit, matchGenCore_none (isPre_false_before_nl hTnl ha)]
    · rw [if_neg hc]
      have hsplit : (ch :: (a2 ++ '\n' :: r)) = (ch :: a2) ++ '\n' :: r := rfl
      rw [hsplit, matchGenCore_none (isPre_false_before_nl hTnl ha)]

theorem splitAtColon_length :
    ∀ {l : List Char} {seg r : List Char},
      splitAtColon l = some (seg, r) → r.length < l.length := by
  intro l
  induction l with
  | nil =>
    intro seg r h
    exact absurd h (by simp [splitAtColon])
  | cons c rest ih =>
    intro seg r h
    rw [splitAtColon] at h
    split at h
    · rw [Option.some.injEq, Prod.mk.injEq] at h
      rw [← h.2]
      simp
    · revert h
      cases hrec : splitAtColon rest with
      | none => intro h; cases h
      | some p =>
        obtain ⟨seg2, r2⟩ := p
        intro h
        rw [Option.some.injEq, Prod.mk.injEq] at h
        have hlt := ih hrec
        rw [← h.2]
        simp only [List.length_cons]
        omega

theorem matchGenAt_length {x kind l r : List Char}
    (h : matchGenAt x kind l = some r) : r.length ≤ l.length := by
  rw [matchGenAt] at h
  split at h
  · split at h
    · exact absurd h (by simp)
    · next c1 s1 r1 heq1 =>
      split at h
      · exact absurd h (by simp)
      · next c2 s2 r2 heq2 =>
        split at h
        · rw [Option.some.injEq] at h
          have h1 := splitAtColon_length heq1
          have h2 := splitAtColon_length heq2
          have h3 : (l.drop (extTokenChars x).length).length ≤ l.length := by
            rw [List.length_drop]
            omega
          have h4 : (r2.drop kind.length).length ≤ r2.length := by
            rw [List.length_drop]
            omega
          rw [← h]
          omega
        · exact absurd h (by simp)
      · exact absurd h (by simp)
    · exact absurd h (by simp)
  · exact absurd h (by simp)

theorem findGenClose_length {x : List Char} :
    ∀ {l r : List Char}, findGenClose x l = some r → r.length < l.length := by
  intro l
  induction l with
  | nil => intro r h; exact absurd h (by simp [findGenClose])
  | cons c rest ih =>
    intro r h
    rw [findGenClose] at h
    split at h
    · revert h
      cases hma : matchGenAt x ("end -->".toList) rest with
      | some r2 =>
        intro h
        rw [Option.some.injEq] at h
        have h1 := matchGenAt_length hma
        have h2 : (dropNl r2).length ≤ r2.length := dropNl_length_le r2
        rw [← h]
        simp only [List.length_cons]
        omega
      | none =>
        intro h
        have := ih h
        simp only [List.length_cons]
        omega
    · have := ih h
      simp only [List.length_cons]
      omega

theorem matchGenCore_length {x : List Char} {l r : List Char}
    (h : matchGenCore x l = some r) : r.length < l.length := by
  rw [matchGenCore] at h
  split at h
  · next r1 heq =>
    split at h
    · exact absurd h (by simp)
    · split at h
      · have h1 := matchGenAt_length heq
        have h2 := findGenClose_length h
        simp only [List.length_cons] at h1
        omega
      · exact absurd h (by simp)
  · exact absurd h (by simp)

theorem matchGenMarker_length {x : List Char} {l r : List Char}
    (h : matchGenMarker x l = some r) : r.length < l.length := by
  cases l with
  | nil => exact @matchGenCore_length x [] r h
  | cons c rest =>
    rw [matchGenMarker] at h
    split at h
    · cases hc : matchGenCore x rest with
      | some r2 =>
        simp only [hc, Option.some_inj] at h
        subst h
        have h2 := matchGenCore_length hc
        simp only [List.length_cons]
        omega
      | none =>
        simp only [hc] at h
        exact matchGenCore_length h
    · exact matchGenCore_length h

theorem stripGenAux_fuel {x : List Char} :
    ∀ (f : Nat) (l : List Char), l.length ≤ f →
      stripGenAux x f l = stripGenAux x l.length l := by
  intro f
  induction f using Nat.strong_induction_on with
  | _ f ih =>
    cases f with
    | zero =>
      intro l hl
      have : l = [] := List.eq_nil_of_length_eq_zero (Nat.le_zero.mp hl)
      subst this
      rfl
    | succ f2 =>
      intro l hl
      cases l with
      | nil => rfl
      | cons c rest =>
        simp only [List.length_cons] at hl ⊢
        cases hm : matchGenMarker x (c :: rest) with
        | some rem =>
          have hlt := matchGenMarker_length hm
          simp only [List.length_cons] at hlt
          simp only [stripGenAux, hm]
          rw [ih f2 (by omega) rem (by omega),
            ih rest.length (by omega) rem (by omega)]
        | none =>
          simp only [stripGenAux, hm]
          rw [ih f2 (by omega) rest (by omega)]

theorem stripGenAux_clean {x : List Char} :
    ∀ (f : Nat) (l : List Char), containsSub (extTokenChars x) l = false →
      stripGenAux x f l = l := by
  intro f
  induction f with
  | zero => intro l _; rfl
  | succ f2 ih =>
    intro l hl
    cases l with
    | nil => rfl
    | cons c rest =>
      rw [stripGenAux, matchGenMarker_none_clean hl]
      rw [ih rest (containsSub_tail hl)]

theorem stripGenAux_block (x skill pos : List Char)
    (hTnl : '\n' ∉ extTokenChars x)
    (hsk : ':' ∉ skill) (hskn : skill ≠ [])
    (hp : ':' ∉ pos) (hpn : pos ≠ []) :
    ∀ (a : List Char), ∀ (m c : List Char),
      containsSub (extTokenChars x) a = false →
      containsSub (extTokenChars x) m = false →
      ∀ (f : Nat),
        (a ++ '\n' :: (startMarker x skill pos ++ '\n' :: (m ++ '\n' ::
          (endMarker x skill pos ++ '\n' :: c)))).length ≤ f →
        stripGenAux x f (a ++ '\n' :: (startMarker x skill pos ++ '\n' :: (m ++ '\n' ::
          (endMarker x skill pos ++ '\n' :: c)))) =
          a ++ stripGenAux x c.length c := by
  intro a
  induction a with
  | nil =>
    intro m c ha hm f hf
    simp only [List.nil_append] at hf ⊢
    cases f with
    | zero => simp at hf
    | succ f2 =>
      have hmm := matchGenMarker_block x skill pos m c hTnl hsk hskn hp hpn hm
      simp only [stripGenAux, hmm]
      simp only [List.length_cons, List.length_append] at hf
      rw [stripGenAux_fuel f2 c (by omega)]
  | cons ch a2 ih =>
    intro m c ha hm f hf
    simp only [List.cons_append, List.length_cons] at hf ⊢
    cases f with
    | zero => omega
    | succ f2 =>
      have hnone : matchGenMarker x (ch :: (a2 ++ '\n' :: (startMarker x skill pos ++
          '\n' :: (m ++ '\n' :: (endMarker x skill pos ++ '\n' :: c))))) = none := by
        have hsplit : (ch :: (a2 ++ '\n' :: (startMarker x skill pos ++
            '\n' :: (m ++ '\n' :: (endMarker x skill pos ++ '\n' :: c))))) =
            (ch :: a2) ++ '\n' :: (startMarker x skill pos ++
              '\n' :: (m ++ '\n' :: (endMarker x skill pos ++ '\n' :: c))) := rfl
        rw [hsplit]
        exact matchGenMarker_none_before_nl hTnl (ch :: a2) _ (by simp) ha
      simp only [stripGenAux, hnone]
      rw [ih m c (containsSub_tail ha) hm f2 (by omega)]

theorem stripGen_block (x skill pos a m c : List Char)
    (hxnl : '\n' ∉ x) (hsk : ':' ∉ skill) (hskn : skill ≠ [])
    (hp : ':' ∉ pos) (hpn : pos ≠ [])
    (ha : containsSub (extTokenChars x) a = false)
    (hm : containsSub (extTokenChars x) m = false)
    (hc : containsSub (extTokenChars x) c = false) :
    stripAllMarkersForExtension
      (a ++ '\n' :: (startMarker x skill pos ++ '\n' :: (m ++ '\n' ::
        (endMarker x skill pos ++ '\n' :: c)))) x = a ++ c := by
  rw [stripAllMarkersForExtension,
    stripGenAux_block x skill pos (nl_not_mem_extToken hxnl) hsk hskn hp hpn
      a m c ha hm _ (Nat.le_refl _),
    stripGenAux_clean c.length c hc]

theorem alookup_strip_files (x : String) (f : String) {v : List Char}
    (hne : v ≠ []) (hcon : containsSub (nameTokenChars x.toList) v = true) :
    ∀ (files : List (String × List Char)), alookup f files = some v →
      alookup f (files.map (fun fv =>
        if fv.2 ≠ [] ∧ containsSub (nameTokenChars x.toList) fv.2 = true then
          (fv.1, stripAllMarkersForExtension fv.2 x.toList)
        else fv)) = some (stripAllMarkersForExtension v x.toList) := by
  intro files
  induction files with
  | nil => intro h; exact absurd h (by simp [alookup])
  | cons kv t ih =>
    obtain ⟨k, w⟩ := kv
    intro h
    rw [alookup] at h
    rw [List.map_cons]
    by_cases hk : k = f
    · rw [if_pos hk] at h
      rw [Option.some.injEq] at h
      subst h
      rw [if_pos ⟨hne, hcon⟩, alookup, if_pos hk]
    · rw [if_neg hk] at h
      by_cases hcond : w ≠ [] ∧ containsSub (nameTokenChars x.toList) w = true
      · rw [if_pos hcond, alookup, if_neg hk]
        exact ih h
      · rw [if_neg hcond, alookup, if_neg hk]
        exact ih h

theorem stripByName_getFile (x : String) (a : AgentState) (f : String)
    {v : List Char} (h : getFile a f = some v) (hne : v ≠ [])
    (hcon : containsSub (nameTokenChars x.toList) v = true) :
    getFile (stripByName x a) f =
      some (stripAllMarkersForExtension v x.toList) := by
  rw [getFile] at h
  rw [stripByName, getFile]
  exact alookup_strip_files x f hne hcon a.files h

theorem containsSub_nameToken_block (x skill pos : List Char) (a r : List Char) :
    containsSub (nameTokenChars x) (a ++ '\n' :: (startMarker x skill pos ++ r))
      = true := by
  refine (containsSub_iff _ _).mpr
    ⟨a ++ '\n' :: "<!-- ".toList,
      skill ++ [':'] ++ pos ++ ":start -->".toList ++ r, ?_⟩
  have h : "<!-- aif-ext:".toList = "<!-- ".toList ++ "aif-ext:".toList := rfl
  rw [startMarker, nameTokenChars, h]
  simp [List.append_assoc]

theorem stripDirectives_getFile_ne (x : String) (f : String) :
    ∀ (ds : List Directive) (a : AgentState), (∀ d2 ∈ ds, d2.target ≠ f) →
      getFile (stripDirectives x a ds) f = getFile a f := by
  intro ds
  induction ds with
  | nil => intro a _; rfl
  | cons d rest ih =>
    intro a h
    rw [stripDirectives]
    split
    · exact ih a (fun d2 hd2 => h d2 (List.mem_cons_of_mem _ hd2))
    · split
      · exact ih a (fun d2 hd2 => h d2 (List.mem_cons_of_mem _ hd2))
      · rw [ih _ (fun d2 hd2 => h d2 (List.mem_cons_of_mem _ hd2))]
        rw [getFile, getFile]
        exact alookup_aset_ne a.files _ (h d (List.mem_cons_self _ _))

theorem stripDirectives_getFile_hit (x : String) (d : Directive) :
    ∀ (ds : List Directive) (a : AgentState) {v : List Char},
      d ∈ ds → (ds.map (fun d2 => d2.target)).Nodup →
      getFile a d.target = some v → v ≠ [] →
      getFile (stripDirectives x a ds) d.target =
        some (stripInjection v x.toList d.target.toList d.position) := by
  intro ds
  induction ds with
  | nil =>
    intro a v hmem
    exact absurd hmem (by simp)
  | cons d2 rest ih =>
    intro a v hmem hnd hfile hne
    rw [List.map_cons, List.nodup_cons] at hnd
    rcases List.mem_cons.mp hmem with rfl | hmem2
    · rw [getFile] at hfile
      rw [stripDirectives]
      simp only [hfile]
      rw [if_neg hne]
      have hrest : ∀ d3 ∈ rest, d3.target ≠ d.target :=
        fun d3 hd3 hcon => hnd.1 (List.mem_map.mpr ⟨d3, hd3, hcon⟩)
      rw [stripDirectives_getFile_ne x d.target rest _ hrest, getFile,
        alookup_aset_self]
    · have hne2 : d2.target ≠ d.target := by
        intro hcon
        exact hnd.1 (hcon ▸ List.mem_map.mpr ⟨d, hmem2, rfl⟩)
      rw [stripDirectives]
      split
      · exact ih _ hmem2 hnd.2 hfile hne
      · split
        · exact ih _ hmem2 hnd.2 hfile hne
        · refine ih _ hmem2 hnd.2 ?_ hne
          rw [getFile, alookup_aset_ne _ _ hne2]
          exact hfile

/-- C9 (counterexample): marker blocks tagged `X` can survive a successful
removal on BOTH paths.  Loadable manifest: only the declared directive
triples are stripped, so a stale block with an undeclared triple remains
byte-for-byte.  Unreadable manifest: the full scan is a single replace pass
that does not rescan its output, so marker fragments split around a removed
block reassemble into a complete well-formed block of `X` (witnessed by the
generic matcher succeeding on the remaining file). -/
theorem c9_counterexample :
    ((extensionRemoveCommand exEnvTrue exWorldStale "E1").err = none ∧
      ∃ a ∈ (extensionRemoveCommand exEnvTrue exWorldStale "E1").world.agents,
        getFile a "f" = some exStaleBlock ∧
        containsSub (nameTokenChars "E1".toList) exStaleBlock = true) ∧
    ((alookup "E1" exWorldGlue.storage).bind (fun st => st.manifest) = none ∧
      (extensionRemoveCommand exEnvTrue exWorldGlue "E1").err = none ∧
      ∃ a ∈ (extensionRemoveCommand exEnvTrue exWorldGlue "E1").world.agents,
        getFile a "f" = some exGlueResult ∧
        (matchGenCore "E1".toList exGlueResult).isSome = true) := by decide

/-- C9 (amended): after a successful removal of `X`, (declared path) with a
loadable manifest each declared directive's target — holding the block the
system itself wrote over a file free of `X`'s markers — is left equal to
the stripped content, which carries no marker token of `X`, for every
directive of the manifest, any position, and pairwise-distinct targets; and
(fallback path) with an unreadable manifest every agent file consisting of
one well-formed block of `X` — ANY target and position, declared nowhere —
amid text free of `X`'s marker token is scanned and left as exactly the
surrounding text, again token-free. -/
theorem c9_remove_strip_paths
    (env1 : Env) (w1 : World) (name1 : String)
    (ext1 : ExtRecord) (others1 : List ExtRecord) (m1 : Manifest)
    (d : Directive) (F B : List Char)
    (hfind1 : findRemove w1.extensions name1 = some (ext1, others1))
    (hman1 : (alookup name1 w1.storage).bind (fun st => st.manifest) = some m1)
    (hd : d ∈ m1.injections)
    (hndt : (m1.injections.map (fun d2 => d2.target)).Nodup)
    (hext1 : '\n' ∉ name1.toList) (hskill1 : '\n' ∉ d.target.toList)
    (hF : containsSub (startMarker name1.toList d.target.toList d.position.toChars) F
      = false)
    (hB : containsSub ('\n' :: endMarker name1.toList d.target.toList
      d.position.toChars) (trimEnd B) = false)
    (htokF : containsSub (nameTokenChars name1.toList) F = false)
    (hfile1 : ∀ a ∈ w1.agents, getFile a d.target =
      some (applyInjection F B d.position name1.toList d.target.toList))
    (env2 : Env) (w2 : World) (name2 : String)
    (ext2 : ExtRecord) (others2 : List ExtRecord)
    (f : String) (skill pos : List Char) (A M C : List Char)
    (hfind2 : findRemove w2.extensions name2 = some (ext2, others2))
    (hman2 : (alookup name2 w2.storage).bind (fun st => st.manifest) = none)
    (hxnl : '\n' ∉ name2.toList)
    (hsk : ':' ∉ skill) (hskn : skill ≠ []) (hp : ':' ∉ pos) (hpn : pos ≠ [])
    (hAC : containsSub (nameTokenChars name2.toList) (A ++ C) = false)
    (hM : containsSub (nameTokenChars name2.toList) M = false)
    (hfile2 : ∀ a ∈ w2.agents, getFile a f = some (A ++ '\n' ::
      (startMarker name2.toList skill pos ++ '\n' :: (M ++ '\n' ::
        (endMarker name2.toList skill pos ++ '\n' :: C))))) :
    ((extensionRemoveCommand env1 w1 name1).err = none ∧
      (∀ a ∈ (extensionRemoveCommand env1 w1 name1).world.agents,
        getFile a d.target = some (stripInjection
          (applyInjection F B d.position name1.toList d.target.toList)
          name1.toList d.target.toList d.position)) ∧
      containsSub (nameTokenChars name1.toList)
        (stripInjection (applyInjection F B d.position name1.toList d.target.toList)
          name1.toList d.target.toList d.position) = false) ∧
    ((extensionRemoveCommand env2 w2 name2).err = none ∧
      (∀ a ∈ (extensionRemoveCommand env2 w2 name2).world.agents,
        getFile a f = some (A ++ C)) ∧
      containsSub (nameTokenChars name2.toList) (A ++ C) = false) := by
  have hnonempty : applyInjection F B d.position name1.toList d.target.toList ≠ [] := by
    cases hdp : d.position with
    | append => simp [applyInjection]
    | prepend =>
      rw [applyInjection]
      cases hfm : fmSplit (stripInjection F name1.toList d.target.toList Pos.prepend) with
      | some p =>
        obtain ⟨fm, rest⟩ := p
        simp [hfm]
      | none => simp [hfm]
  have htokv : containsSub (nameTokenChars name1.toList)
      (stripInjection (applyInjection F B d.position name1.toList d.target.toList)
        name1.toList d.target.toList d.position) = false := by
    cases hdp : d.position with
    | append =>
      rw [hdp] at hF hB
      rw [stripApply_append F B name1.toList d.target.toList hext1 hskill1 hF hB]
      have h1 : containsSub (nameTokenChars name1.toList) (trimEnd F) = false := by
        obtain ⟨t, ht⟩ := trimEnd_append_exists F
        rw [ht] at htokF
        exact containsSub_false_left htokF
      exact containsSub_snoc_not_mem h1 (nl_not_mem_nameToken hext1)
    | prepend =>
      rw [hdp] at hF hB
      cases hfm : fmSplit F with
      | some p =>
        obtain ⟨fm, rest⟩ := p
        rw [stripApply_prepend_fm F B name1.toList d.target.toList fm rest
          hext1 hskill1 hF hB hfm]
        exact htokF
      | none =>
        rw [stripApply_prepend_nofm F B name1.toList d.target.toList
          hext1 hskill1 hF hB hfm]
        exact containsSub_cons_not_mem htokF (nl_not_mem_nameToken hext1)
  refine ⟨⟨by simp [extensionRemoveCommand, hfind1], ?_, htokv⟩,
    by simp [extensionRemoveCommand, hfind2], ?_, hAC⟩
  · simp only [extensionRemoveCommand, hfind1, hman1]
    refine forall_of_map_eq _ (installBaseAll_getFile _ _ _) ?_
    refine forall_of_map_eq _ (removeSkillsAll_getFile _ _ _) ?_
    refine forall_of_map_eq _ (removeSkillsAll_getFile _ _ _) ?_
    intro a2 ha2
    rw [stripDirAll_agents] at ha2
    obtain ⟨a, ha, rfl⟩ := List.mem_map.mp ha2
    exact stripDirectives_getFile_hit name1 d m1.injections a hd hndt
      (hfile1 a ha) hnonempty
  · have hA2 : containsSub (extTokenChars name2.toList) A = false :=
      containsSub_extToken_false (containsSub_false_left hAC)
    have hC2 : containsSub (extTokenChars name2.toList) C = false :=
      containsSub_extToken_false (containsSub_false_right hAC)
    have hM2 : containsSub (extTokenChars name2.toList) M = false :=
      containsSub_extToken_false hM
    simp only [extensionRemoveCommand, hfind2, hman2]
    refine forall_of_map_eq _ (installBaseAll_getFile _ _ _) ?_
    refine forall_of_map_eq _ (removeSkillsAll_getFile _ _ _) ?_
    refine forall_of_map_eq _ (removeSkillsAll_getFile _ _ _) ?_
    intro a2 ha2
    rw [stripByNameAll_agents] at ha2
    obtain ⟨a, ha, rfl⟩ := List.mem_map.mp ha2
    rw [stripByName_getFile name2 a f (hfile2 a ha) (by simp)
      (containsSub_nameToken_block name2.toList skill pos A _)]
    rw [stripGen_block name2.toList skill pos A M C hxnl hsk hskn hp hpn hA2 hM2 hC2]

/-- C9 (witness): both paths of the strip theorem at concrete worlds — the
declared append directive over `body\n`, and an undeclared block between
`intro` and `outro` with no durable manifest. -/
theorem c9_witness :
    (alookup "E1" exWorldInj.storage).bind (fun st => st.manifest) =
      some exManifestInj ∧
    (alookup "E1" exWorldFallback.storage).bind (fun st => st.manifest) = none ∧
    (((extensionRemoveCommand exEnvTrue exWorldInj "E1").err = none ∧
      (∀ a ∈ (extensionRemoveCommand exEnvTrue exWorldInj "E1").world.agents,
        getFile a "aif-implement" = some (stripInjection
          (applyInjection "body\n".toList "extra\n".toList Pos.append
            "E1".toList "aif-implement".toList)
          "E1".toList "aif-implement".toList Pos.append)) ∧
      containsSub (nameTokenChars "E1".toList)
        (stripInjection
          (applyInjection "body\n".toList "extra\n".toList Pos.append
            "E1".toList "aif-implement".toList)
          "E1".toList "aif-implement".toList Pos.append) = false) ∧
    ((extensionRemoveCommand exEnvTrue exWorldFallback "E1").err = none ∧
      (∀ a ∈ (extensionRemoveCommand exEnvTrue exWorldFallback "E1").world.agents,
        getFile a "f" = some ("intro".toList ++ "outro\n".toList)) ∧
      containsSub (nameTokenChars "E1".toList)
        ("intro".toList ++ "outro\n".toList) = false)) :=
  ⟨rfl, rfl,
    c9_remove_strip_paths exEnvTrue exWorldInj "E1"
      { name := "E1", source := "s", version := "1", replacedSkills := [] } []
      exManifestInj
      { target := "aif-implement", position := Pos.append, file := "inj.md" }
      "body\n".toList "extra\n".toList rfl rfl (by decide) (by decide) (by decide)
      (by decide) (by decide) (by decide) (by decide) (by decide)
      exEnvTrue exWorldFallback "E1"
      { name := "E1", source := "s", version := "1", replacedSkills := [] } []
      "f" "other".toList Pos.append.toChars "intro".toList "body".toList
      "outro\n".toList rfl rfl (by decide) (by decide) (by decide) (by decide)
      (by decide) (by decide) (by decide) (by decide)⟩

/-! ## Preservation of the ownership-exclusivity invariant -/

theorem recordsDisjoint_cons {r : ExtRecord} {rest : List ExtRecord} :
    recordsDisjoint (r :: rest) = true ↔
      (∀ r2 ∈ rest, ∀ b ∈ r.replacedSkills, b ∉ r2.replacedSkills) ∧
        recordsDisjoint rest = true := by
  rw [recordsDisjoint, Bool.and_eq_true]
  constructor
  · rintro ⟨h1, h2⟩
    refine ⟨?_, h2⟩
    intro r2 hr2 b hb
    have := List.all_eq_true.mp h1 r2 hr2
    have hbb := List.all_eq_true.mp this b hb
    rw [Bool.not_eq_true'] at hbb
    intro hcon
    rw [(by simpa using hcon : r2.replacedSkills.contains b = true)] at hbb
    exact absurd hbb (by simp)
  · rintro ⟨h1, h2⟩
    refine ⟨?_, h2⟩
    rw [List.all_eq_true]
    intro r2 hr2
    rw [List.all_eq_true]
    intro b hb
    rw [Bool.not_eq_true']
    have := h1 r2 hr2 b hb
    simpa using this

theorem namesNodup_cons {r : ExtRecord} {rest : List ExtRecord} :
    namesNodup (r :: rest) = true ↔
      (∀ r2 ∈ rest, r2.name ≠ r.name) ∧ namesNodup rest = true := by
  rw [namesNodup, Bool.and_eq_true]
  constructor
  · rintro ⟨h1, h2⟩
    refine ⟨?_, h2⟩
    intro r2 hr2 hcon
    rw [Bool.not_eq_true', List.any_eq_false] at h1
    have h3 := h1 r2 hr2
    rw [hcon] at h3
    exact h3 (by simp)
  · rintro ⟨h1, h2⟩
    refine ⟨?_, h2⟩
    rw [Bool.not_eq_true', List.any_eq_false]
    intro r2 hr2 hcon
    exact h1 r2 hr2 (beq_iff_eq.mp hcon)

theorem recordsDisjoint_sublist {l1 l2 : List ExtRecord} (hsub : l1.Sublist l2)
    (h : recordsDisjoint l2 = true) : recordsDisjoint l1 = true := by
  induction hsub with
  | slnil => rfl
  | cons r hs ih => exact ih (recordsDisjoint_cons.mp h).2
  | cons₂ r hs ih =>
    rw [recordsDisjoint_cons] at h ⊢
    exact ⟨fun r2 hr2 => h.1 r2 (hs.subset hr2), ih h.2⟩

theorem namesNodup_sublist {l1 l2 : List ExtRecord} (hsub : l1.Sublist l2)
    (h : namesNodup l2 = true) : namesNodup l1 = true := by
  induction hsub with
  | slnil => rfl
  | cons r hs ih => exact ih (namesNodup_cons.mp h).2
  | cons₂ r hs ih =>
    rw [namesNodup_cons] at h ⊢
    exact ⟨fun r2 hr2 => h.1 r2 (hs.subset hr2), ih h.2⟩

theorem findRemove_sublist :
    ∀ (exts : List ExtRecord) (n : String) (x : ExtRecord) (others : List ExtRecord),
      findRemove exts n = some (x, others) → others.Sublist exts := by
  intro exts
  induction exts with
  | nil => intro n x others h; cases h
  | cons r rest ih =>
    intro n x others h
    rw [findRemove] at h
    split at h
    · rw [Option.some.injEq, Prod.mk.injEq] at h
      rw [← h.2]
      exact List.sublist_cons_self r rest
    · revert h
      cases hrec : findRemove rest n with
      | none => intro h; cases h
      | some p =>
        intro h
        obtain ⟨x2, o2⟩ := p
        rw [Option.some.injEq, Prod.mk.injEq] at h
        rw [← h.2]
        exact (ih n x2 o2 hrec).cons₂ r

theorem recordsDisjoint_map (f : ExtRecord → ExtRecord)
    (hsub : ∀ r b, b ∈ (f r).replacedSkills → b ∈ r.replacedSkills) :
    ∀ l : List ExtRecord, recordsDisjoint l = true →
      recordsDisjoint (l.map f) = true := by
  intro l
  induction l with
  | nil => intro _; rfl
  | cons r rest ih =>
    intro h
    rw [recordsDisjoint_cons] at h
    rw [List.map_cons, recordsDisjoint_cons]
    refine ⟨?_, ih h.2⟩
    intro r2 hr2 b hb
    obtain ⟨r3, hr3, rfl⟩ := List.mem_map.mp hr2
    intro hcon
    exact h.1 r3 hr3 b (hsub r b hb) (hsub r3 b hcon)

theorem namesNodup_map (f : ExtRecord → ExtRecord)
    (hname : ∀ r, (f r).name = r.name) :
    ∀ l : List ExtRecord, namesNodup l = true → namesNodup (l.map f) = true := by
  intro l
  induction l with
  | nil => intro _; rfl
  | cons r rest ih =>
    intro h
    rw [namesNodup_cons] at h
    rw [List.map_cons, namesNodup_cons]
    refine ⟨?_, ih h.2⟩
    intro r2 hr2
    obtain ⟨r3, hr3, rfl⟩ := List.mem_map.mp hr2
    rw [hname r3, hname r]
    exact h.1 r3 hr3

theorem updateRecordOnly_name (st : List (String × StoredExt)) (r : ExtRecord) :
    (updateRecordOnly st r).name = r.name := by
  rw [updateRecordOnly]
  by_cases h : r.replacedSkills = []
  · rw [if_pos h]
  · rw [if_neg h]
    cases hlook : ((alookup r.name st).bind (fun st2 => st2.manifest)).bind
        (fun m => m.replaces) with
    | none => rfl
    | some entries => rfl

theorem updateRecordOnly_replaced_sub (st : List (String × StoredExt)) (r : ExtRecord) :
    ∀ b ∈ (updateRecordOnly st r).replacedSkills, b ∈ r.replacedSkills := by
  intro b hb
  rw [updateRecordOnly] at hb
  by_cases h : r.replacedSkills = []
  · rw [if_pos h] at hb
    exact hb
  · rw [if_neg h] at hb
    revert hb
    cases hlook : ((alookup r.name st).bind (fun st2 => st2.manifest)).bind
        (fun m => m.replaces) with
    | none => intro hb; exact absurd hb (by simp)
    | some entries =>
      intro hb
      exact List.mem_of_mem_filter hb

theorem mem_updateRecord :
    ∀ (l : List ExtRecord) (r o : ExtRecord), o ∈ updateRecord l r → o ∈ l ∨ o = r := by
  intro l
  induction l with
  | nil =>
    intro r o h
    rcases List.mem_singleton.mp h with rfl
    exact Or.inr rfl
  | cons r2 rest ih =>
    intro r o h
    rw [updateRecord] at h
    split at h
    · rcases List.mem_cons.mp h with rfl | h
      · exact Or.inr rfl
      · exact Or.inl (List.mem_cons_of_mem _ h)
    · rcases List.mem_cons.mp h with rfl | h
      · exact Or.inl (List.mem_cons_self _ _)
      · rcases ih r o h with h2 | h2
        · exact Or.inl (List.mem_cons_of_mem _ h2)
        · exact Or.inr h2

theorem updateRecord_inv (record : ExtRecord) :
    ∀ (exts : List ExtRecord), recordsDisjoint exts = true → namesNodup exts = true →
      (∀ b ∈ record.replacedSkills, ∀ o ∈ exts, o.name ≠ record.name →
        b ∉ o.replacedSkills) →
      recordsDisjoint (updateRecord exts record) = true ∧
        namesNodup (updateRecord exts record) = true := by
  intro exts
  induction exts with
  | nil =>
    intro _ _ _
    exact ⟨rfl, rfl⟩
  | cons r2 rest ih =>
    intro hd hn hno
    rw [recordsDisjoint_cons] at hd
    rw [namesNodup_cons] at hn
    rw [updateRecord]
    split
    · next heq =>
      rw [recordsDisjoint_cons, namesNodup_cons]
      refine ⟨⟨?_, hd.2⟩, ?_, hn.2⟩
      · intro r3 hr3 b hb
        exact hno b hb r3 (List.mem_cons_of_mem _ hr3)
          (by rw [← heq]; exact hn.1 r3 hr3)
      · intro r3 hr3
        rw [← heq]
        exact hn.1 r3 hr3
    · next hne =>
      rw [recordsDisjoint_cons, namesNodup_cons]
      have hrec := ih hd.2 hn.2
        (fun b hb o ho hon => hno b hb o (List.mem_cons_of_mem _ ho) hon)
      refine ⟨⟨?_, hrec.1⟩, ?_, hrec.2⟩
      · intro r3 hr3 b hb
        rcases mem_updateRecord rest record r3 hr3 with h | rfl
        · exact hd.1 r3 h b hb
        · intro hcon
          exact hno b hcon r2 (List.mem_cons_self _ _) hne hb
      · intro r3 hr3
        rcases mem_updateRecord rest record r3 hr3 with h | rfl
        · exact hn.1 r3 h
        · intro hcon
          exact hne hcon.symm

theorem conflictCheck_none {m : Manifest} {exts : List ExtRecord}
    (h : conflictCheck m exts = none) :
    ∀ pb ∈ m.replaces.getD [], ∀ o ∈ exts, o.name ≠ m.name →
      pb.2 ∉ o.replacedSkills := by
  intro pb hpb o ho hne hmem
  cases hrep : m.replaces with
  | none =>
    rw [hrep] at hpb
    exact absurd hpb (by simp)
  | some entries =>
    rw [hrep] at hpb
    simp only [Option.getD_some] at hpb
    have h2 := h
    simp only [conflictCheck, hrep] at h2
    cases hfind : entries.find? (fun pb2 => exts.any (fun o2 =>
        o2.name != m.name && o2.replacedSkills.contains pb2.2)) with
    | some pb2 =>
      rw [hfind] at h2
      exact absurd h2 (by simp)
    | none =>
      have hall := List.find?_eq_none.mp hfind pb hpb
      rw [Bool.not_eq_true, List.any_eq_false] at hall
      have h3 := hall o ho
      exact h3 (by
        rw [Bool.and_eq_true]
        exact ⟨bne_iff_ne.mpr hne, by simpa using hmem⟩)

theorem addCommand_extensions (env : Env) (w : World) (resolved : Resolved)
    (source : String) (hconf : conflictCheck resolved.manifest w.extensions = none) :
    (extensionAddCommand env w resolved source).world.extensions =
      updateRecord w.extensions (addRecordOf env w resolved source) := by
  simp only [extensionAddCommand, hconf]
  rfl

theorem addRecordOf_name (env : Env) (w : World) (resolved : Resolved)
    (source : String) :
    (addRecordOf env w resolved source).name = resolved.manifest.name := rfl

theorem addRecordOf_replaced_mem (env : Env) (w : World) (resolved : Resolved)
    (source : String) :
    ∀ b ∈ (addRecordOf env w resolved source).replacedSkills,
      ∃ pb ∈ resolved.manifest.replaces.getD [], pb.2 = b := by
  intro b hb
  by_cases hent : resolved.manifest.replaces.getD [] = []
  · simp only [addRecordOf, hent, ite_true, if_true] at hb
    exact absurd hb (by simp)
  · simp only [addRecordOf, hent, ite_false, if_false, processEntries_rs] at hb
    obtain ⟨pb, hpb, rfl⟩ := List.mem_map.mp hb
    exact ⟨pb, List.mem_of_mem_filter hpb, rfl⟩

theorem runOp_inv (env : Env) (w : World) (op : Op)
    (hd : recordsDisjoint w.extensions = true) (hn : namesNodup w.extensions = true) :
    recordsDisjoint (runOp env w op).extensions = true ∧
      namesNodup (runOp env w op).extensions = true := by
  cases op with
  | add resolved source =>
    rw [runOp]
    cases hcc : conflictCheck resolved.manifest w.extensions with
    | some b =>
      have hid : (extensionAddCommand env w resolved source).world = w := by
        simp [extensionAddCommand, hcc]
      rw [hid]
      exact ⟨hd, hn⟩
    | none =>
      rw [addCommand_extensions env w resolved source hcc]
      apply updateRecord_inv (addRecordOf env w resolved source) w.extensions hd hn
      intro b hb o ho hon
      obtain ⟨pb, hpb, rfl⟩ := addRecordOf_replaced_mem env w resolved source b hb
      exact conflictCheck_none hcc pb hpb o ho hon
  | update =>
    rw [runOp]
    have hext : (updateCommand env w).world.extensions =
        w.extensions.map (updateRecordOnly w.storage) := by
      simp only [updateCommand]
      rw [updateExts_exts]
    rw [hext]
    exact ⟨recordsDisjoint_map _
        (fun r b hb => updateRecordOnly_replaced_sub w.storage r b hb) w.extensions hd,
      namesNodup_map _ (updateRecordOnly_name w.storage) w.extensions hn⟩
  | remove name =>
    rw [runOp]
    cases hfr : findRemove w.extensions name with
    | none =>
      have hid : (extensionRemoveCommand env w name).world = w := by
        simp [extensionRemoveCommand, hfr]
      rw [hid]
      exact ⟨hd, hn⟩
    | some p =>
      obtain ⟨x, others⟩ := p
      have hext : (extensionRemoveCommand env w name).world.extensions = others := by
        simp [extensionRemoveCommand, hfr]
      rw [hext]
      have hsub := findRemove_sublist w.extensions name x others hfr
      exact ⟨recordsDisjoint_sublist hsub hd, namesNodup_sublist hsub hn⟩

theorem runOps_inv (env : Env) :
    ∀ (ops : List Op) (w : World),
      recordsDisjoint w.extensions = true → namesNodup w.extensions = true →
      recordsDisjoint (runOps env w ops).extensions = true ∧
        namesNodup (runOps env w ops).extensions = true := by
  intro ops
  induction ops with
  | nil => intro w hd hn; exact ⟨hd, hn⟩
  | cons op rest ih =>
    intro w hd hn
    rw [runOps]
    obtain ⟨hd2, hn2⟩ := runOp_inv env w op hd hn
    exact ih _ hd2 hn2

/-- C5: starting from a store with pairwise-distinct record names in which
no base skill is owned by two records, after any sequence of install,
update, and remove operations no base skill name appears in the
replacedSkills of two distinct extension records. -/
theorem c5_ownership_exclusive (env : Env) (w : World) (ops : List Op)
    (hd : recordsDisjoint w.extensions = true)
    (hn : namesNodup w.extensions = true) :
    recordsDisjoint (runOps env w ops).extensions = true :=
  (runOps_inv env ops w hd hn).1

/-- C5 (witness): the exclusivity theorem at a concrete run performing an
install, an update, and a remove from a one-record store. -/
theorem c5_witness :
    recordsDisjoint exWorldOther.extensions = true ∧
    namesNodup exWorldOther.extensions = true ∧
    recordsDisjoint (runOps exEnvTrue exWorldOther
      [Op.add exResolvedInj "src1", Op.update, Op.remove "OTHER"]).extensions = true :=
  ⟨by decide, by decide,
    c5_ownership_exclusive exEnvTrue exWorldOther
      [Op.add exResolvedInj "src1", Op.update, Op.remove "OTHER"]
      (by decide) (by decide)⟩

end AIF
